import Mathlib

/-
  Verification development for the glox repository: a scanner, a Pratt
  compiler to bytecode, and a stack VM for an expression language over
  nil / bool / number values.

  Shallow embedding notes:
  * Go strings are modelled as lists of bytes (`List Nat`, each < 256);
    the scanner decodes UTF-8 runes from byte offsets exactly as
    `unicode/utf8.DecodeRuneInString` does, and `RuneCountInString` is
    modelled byte-faithfully.
  * Go `float64` payloads are modelled as `Rat`.  The claims settled here
    depend only on error/tag behaviour and on exactly representable
    values, never on IEEE-754 artifacts (the one deviation: `Rat`
    division by zero yields 0 where Go floats yield Inf/NaN; only the
    absence of an error is ever asserted about that case).
  * Go `unicode.IsDigit` / `unicode.IsLetter` are modelled on the ASCII
    range (the full Unicode tables are library data; every input
    exercised here is ASCII, and the universal theorems below do not
    depend on the classifier's extension).
  * Loops in the Go source are modelled with explicit fuel; the scanner
    passes `source.length + 1` fuel, which bounds every terminating Go
    loop, and the compiler takes fuel as a parameter (universal theorems
    quantify over it).
  * Go panics (unchecked type assertions, out-of-range indexing,
    popping an empty stack) are modelled as distinguished error values.
-/

namespace Glox

/-! ## Value model (src/value.go) -/

inductive ValueType where
  | ValueNil
  | ValueBool
  | ValueNumber
  deriving DecidableEq, Repr

/-- Payload of a Go `Value`: the `data interface{}` field.  `pnone`
models the nil interface (the payload of `nilValue`). -/
inductive Payload where
  | pnone
  | pbool (b : Bool)
  | pnum (q : Rat)
  deriving DecidableEq, Repr

/-- Go `Value` struct: a tag plus an untyped payload. -/
structure Value where
  typ : ValueType
  data : Payload
  deriving DecidableEq, Repr

def nilValue : Value := ⟨.ValueNil, .pnone⟩

def boolValue (b : Bool) : Value := ⟨.ValueBool, .pbool b⟩

def numberValue (q : Rat) : Value := ⟨.ValueNumber, .pnum q⟩

/-- Errors of the value operators: `assertFailed` models a Go panic from
an unchecked type assertion (`v.data.(float64)` / `v.data.(bool)` on a
payload of the wrong dynamic type); `mismatch` models the returned
`"type mismatch"` error. -/
inductive VErr where
  | assertFailed
  | mismatch
  deriving DecidableEq, Repr

/-- Go `v.asNumber()`: unchecked assertion `v.data.(float64)`. -/
def Value.asNumber (v : Value) : Except VErr Rat :=
  match v.data with
  | .pnum q => .ok q
  | _ => .error .assertFailed

/-- Go `v.asBool()`: for a Bool-tagged value an unchecked assertion
`v.data.(bool)`; for a Nil-tagged value `v.data != nil`; else `true`. -/
def Value.asBool (v : Value) : Except VErr Bool :=
  match v.typ with
  | .ValueBool =>
      match v.data with
      | .pbool b => .ok b
      | _ => .error .assertFailed
  | .ValueNil => .ok (match v.data with | .pnone => false | _ => true)
  | _ => .ok true

/-- Go `negateValue`: no tag check at all; coerces the payload via the
unchecked assertion and negates. -/
def negateValue (v : Value) : Except VErr Value :=
  (v.asNumber).map (fun q => numberValue (-q))

/-- Go `notValue`: boolean complement of truthiness. -/
def notValue (v : Value) : Except VErr Value :=
  (v.asBool).map (fun b => boolValue (!b))

def addValues (v w : Value) : Except VErr Value :=
  if v.typ = .ValueNumber ∧ w.typ = .ValueNumber then do
    let x ← v.asNumber
    let y ← w.asNumber
    pure (numberValue (x + y))
  else .error .mismatch

def subtractValues (v w : Value) : Except VErr Value :=
  if v.typ = .ValueNumber ∧ w.typ = .ValueNumber then do
    let x ← v.asNumber
    let y ← w.asNumber
    pure (numberValue (x - y))
  else .error .mismatch

def multiplyValues (v w : Value) : Except VErr Value :=
  if v.typ = .ValueNumber ∧ w.typ = .ValueNumber then do
    let x ← v.asNumber
    let y ← w.asNumber
    pure (numberValue (x * y))
  else .error .mismatch

def divideValues (v w : Value) : Except VErr Value :=
  if v.typ = .ValueNumber ∧ w.typ = .ValueNumber then do
    let x ← v.asNumber
    let y ← w.asNumber
    pure (numberValue (x / y))
  else .error .mismatch

/-- Go `valuesEqual`: `res` starts false, is set only when the tags
agree, and the result is always `boolValue res` with a nil error. -/
def valuesEqual (v w : Value) : Except VErr Value :=
  if v.typ = w.typ then
    match v.typ with
    | .ValueNil => .ok (boolValue true)
    | .ValueBool => do
        let a ← v.asBool
        let b ← w.asBool
        pure (boolValue (a == b))
    | .ValueNumber => do
        let a ← v.asNumber
        let b ← w.asNumber
        pure (boolValue (a == b))
  else .ok (boolValue false)

def valueGreater (v w : Value) : Except VErr Value :=
  if v.typ = .ValueNumber ∧ w.typ = .ValueNumber then do
    let x ← v.asNumber
    let y ← w.asNumber
    pure (boolValue (decide (x > y)))
  else .error .mismatch

def valueLess (v w : Value) : Except VErr Value :=
  if v.typ = .ValueNumber ∧ w.typ = .ValueNumber then do
    let x ← v.asNumber
    let y ← w.asNumber
    pure (boolValue (decide (x < y)))
  else .error .mismatch

/-! ## Value printing (`Value.String`, `fmt.Sprintf "%f"`) -/

/-- Decimal rendering of `n` (`strconv`-style, base 10). -/
def natDecimal (n : Nat) : String := toString n

/-- Fixed-point 6-decimal rendering of a rational, modelling Go's `%f`
formatting of a `float64` (exact for every value printed by a claim;
rounding at sub-microdigit precision is half-up here, a deviation only
possible for values no claim exercises). -/
def formatRat (q : Rat) : String :=
  let sign := if q < 0 then "-" else ""
  let aq : Rat := if q < 0 then -q else q
  let r : Rat := aq * 1000000 + 1 / 2
  let scaled : Nat := r.num.toNat / r.den
  let ip := scaled / 1000000
  let fp := scaled % 1000000
  let fpStr := natDecimal fp
  let pad := String.mk (List.replicate (6 - fpStr.length) '0')
  sign ++ natDecimal ip ++ "." ++ pad ++ fpStr

/-- Go `Value.String`.  The bool/number branches perform unchecked
payload assertions; a panicking branch is rendered here as `"panic"`
(only well-formed values are ever printed by the claims). -/
def formatValue (v : Value) : String :=
  match v.typ with
  | .ValueNil => "nil"
  | .ValueBool =>
      match v.data with
      | .pbool true => "true"
      | .pbool false => "false"
      | _ => "panic"
  | .ValueNumber =>
      match v.data with
      | .pnum q => formatRat q
      | _ => "panic"

/-! ## UTF-8 decoding (Go `unicode/utf8`) -/

/-- One step of Go `utf8.DecodeRuneInString` on a byte list: returns the
decoded rune (as an Int code point; RuneError = 0xFFFD on invalid input)
and the number of bytes consumed.  Empty input gives size 0; any other
input gives size ≥ 1. -/
def decodeRune : List Nat → Int × Nat
  | [] => (0xFFFD, 0)
  | b0 :: rest =>
    if b0 < 0x80 then ((b0 : Int), 1)
    else if b0 < 0xC2 then (0xFFFD, 1)
    else if b0 ≤ 0xDF then
      match rest with
      | b1 :: _ =>
        if 0x80 ≤ b1 ∧ b1 ≤ 0xBF then
          ((((b0 - 0xC0) * 64 + (b1 - 0x80) : Nat) : Int), 2)
        else (0xFFFD, 1)
      | [] => (0xFFFD, 1)
    else if b0 ≤ 0xEF then
      match rest with
      | b1 :: b2 :: _ =>
        let lo1 := if b0 = 0xE0 then 0xA0 else 0x80
        let hi1 := if b0 = 0xED then 0x9F else 0xBF
        if lo1 ≤ b1 ∧ b1 ≤ hi1 then
          if 0x80 ≤ b2 ∧ b2 ≤ 0xBF then
            ((((b0 - 0xE0) * 4096 + (b1 - 0x80) * 64 + (b2 - 0x80) : Nat) : Int), 3)
          else (0xFFFD, 1)
        else (0xFFFD, 1)
      | [b1] =>
        let lo1 := if b0 = 0xE0 then 0xA0 else 0x80
        let hi1 := if b0 = 0xED then 0x9F else 0xBF
        if lo1 ≤ b1 ∧ b1 ≤ hi1 then (0xFFFD, 1) else (0xFFFD, 1)
      | [] => (0xFFFD, 1)
    else if b0 ≤ 0xF4 then
      match rest with
      | b1 :: b2 :: b3 :: _ =>
        let lo1 := if b0 = 0xF0 then 0x90 else 0x80
        let hi1 := if b0 = 0xF4 then 0x8F else 0xBF
        if lo1 ≤ b1 ∧ b1 ≤ hi1 then
          if 0x80 ≤ b2 ∧ b2 ≤ 0xBF then
            if 0x80 ≤ b3 ∧ b3 ≤ 0xBF then
              ((((b0 - 0xF0) * 262144 + (b1 - 0x80) * 4096 +
                (b2 - 0x80) * 64 + (b3 - 0x80) : Nat) : Int), 4)
            else (0xFFFD, 1)
          else (0xFFFD, 1)
        else (0xFFFD, 1)
      | _ => (0xFFFD, 1)
    else (0xFFFD, 1)

/-- Fueled helper for `utf8RuneCount`; fuel `bs.length` always
suffices since every decode step on nonempty input consumes ≥ 1 byte. -/
def runeCountAux : Nat → List Nat → Nat
  | 0, _ => 0
  | _, [] => 0
  | fuel + 1, bs =>
    let sz := (decodeRune bs).2
    runeCountAux fuel (bs.drop (max sz 1)) + 1

/-- Go `utf8.RuneCountInString`. -/
def utf8RuneCount (bs : List Nat) : Nat := runeCountAux bs.length bs

/-! ## Scanner (src/scanner.go) -/

inductive TokenType where
  | TokenError
  | TokenEOF
  | TokenLeftParen
  | TokenRightParen
  | TokenLeftBrace
  | TokenRightBrace
  | TokenComma
  | TokenDot
  | TokenPlus
  | TokenMinus
  | TokenStar
  | TokenSlash
  | TokenEqual
  | TokenEqualEqual
  | TokenBang
  | TokenBangEqual
  | TokenLess
  | TokenLessEqual
  | TokenGreater
  | TokenGreaterEqual
  | TokenSemicolon
  | TokenString
  | TokenNumber
  | TokenIdentifier
  | TokenAnd
  | TokenClass
  | TokenElse
  | TokenFalse
  | TokenFor
  | TokenFun
  | TokenIf
  | TokenNil
  | TokenOr
  | TokenPrint
  | TokenReturn
  | TokenSuper
  | TokenTrue
  | TokenVar
  | TokenWhile
  deriving DecidableEq, Repr

structure Token where
  typ : TokenType
  line : Nat
  data : List Nat
  deriving DecidableEq, Repr

/-- The Go `scanner` struct: byte cursor over the source. -/
structure Sc where
  source : List Nat
  start : Nat
  current : Nat
  line : Nat
  deriving DecidableEq, Repr

/-- Go `scanner.runeAt`: note the bug under scrutiny — the bounds check
compares the BYTE offset `index` against the RUNE count of the source. -/
def Sc.runeAt (s : Sc) (index : Nat) : Int × Nat :=
  if index ≥ utf8RuneCount s.source then (-1, 0)
  else decodeRune (s.source.drop index)

def Sc.currentRune (s : Sc) : Int × Nat := s.runeAt s.current

/-- Go `scanner.isEOF`: byte offset against byte length. -/
def Sc.isEOF (s : Sc) : Bool := s.current ≥ s.source.length

/-- Go `scanner.makeToken`: the span is `source[start:current]`. -/
def Sc.makeToken (s : Sc) (typ : TokenType) : Token :=
  { typ := typ, line := s.line + 1,
    data := (s.source.drop s.start).take (s.current - s.start) }

/-- Go `unicode.IsDigit`, modelled on the ASCII range (see header). -/
def isDigitR (r : Int) : Bool := 48 ≤ r ∧ r ≤ 57

/-- Go `isAlpha` = `unicode.IsLetter(r) || r == '_'`, letters modelled
on the ASCII range (see header). -/
def isAlphaR (r : Int) : Bool :=
  (65 ≤ r ∧ r ≤ 90) ∨ (97 ≤ r ∧ r ≤ 122) ∨ r = 95

/-- Go `scanner.match`. -/
def Sc.matchRune (s : Sc) (expected : Int) : Bool × Sc :=
  if s.isEOF then (false, s)
  else
    let (r, size) := s.currentRune
    if r ≠ expected then (false, s)
    else (true, { s with current := s.current + size })

/-- Go `scanner.skipUntilNewLine`; the loop is fueled (it can fail to
terminate in Go on sources where the rune/byte unit bug bites). -/
def skipUntilNewLine : Nat → Sc → Sc
  | 0, s => s
  | fuel + 1, s =>
    let (r, size) := s.currentRune
    if r ≠ 10 ∧ ¬ s.isEOF then
      skipUntilNewLine fuel { s with current := s.current + size }
    else s

/-- Go `scanner.skipWhitespace`.  Note: after skipping a `//` comment
the Go loop falls through to `break` instead of continuing, so any
newline ending the comment is left for `nextToken` to classify. -/
def skipWhitespace : Nat → Sc → Sc
  | 0, s => s
  | fuel + 1, s =>
    let (r, size) := s.currentRune
    if r = 32 ∨ r = 13 ∨ r = 9 then
      skipWhitespace fuel { s with current := s.current + size }
    else if r = 10 then
      skipWhitespace fuel { s with line := s.line + 1, current := s.current + size }
    else if r = 47 then
      if (s.runeAt (s.current + size)).1 = 47 then skipUntilNewLine fuel s
      else s
    else s

/-- Inner fractional-digit loop of Go `scanner.number`. -/
def numberFracLoop : Nat → Sc → Sc
  | 0, s => s
  | fuel + 1, s =>
    let (r, size) := s.currentRune
    if isDigitR r then numberFracLoop fuel { s with current := s.current + size }
    else s

/-- Outer loop of Go `scanner.number`: digits, then optionally one `.`
(consumed unconditionally) followed by a run of digits. -/
def numberLoop : Nat → Sc → Sc
  | 0, s => s
  | fuel + 1, s =>
    let (r, size) := s.currentRune
    if isDigitR r then numberLoop fuel { s with current := s.current + size }
    else if r = 46 then numberFracLoop fuel { s with current := s.current + size }
    else s

/-- Identifier-run loop of Go `scanner.identifier`. -/
def identLoop : Nat → Sc → Sc
  | 0, s => s
  | fuel + 1, s =>
    let (r, size) := s.currentRune
    if isAlphaR r ∨ isDigitR r then identLoop fuel { s with current := s.current + size }
    else s

/-- ASCII bytes of a Lean string literal (used for keyword tables and the
concrete sources of the theorems; all are pure ASCII). -/
def ab (str : String) : List Nat := str.toList.map Char.toNat

/-- Keyword reclassification switch of Go `scanner.identifier`. -/
def keywordType (data : List Nat) : Option TokenType :=
  if data = ab "and" then some .TokenAnd
  else if data = ab "class" then some .TokenClass
  else if data = ab "else" then some .TokenElse
  else if data = ab "false" then some .TokenFalse
  else if data = ab "for" then some .TokenFor
  else if data = ab "fun" then some .TokenFun
  else if data = ab "if" then some .TokenIf
  else if data = ab "nil" then some .TokenNil
  else if data = ab "or" then some .TokenOr
  else if data = ab "print" then some .TokenPrint
  else if data = ab "return" then some .TokenReturn
  else if data = ab "super" then some .TokenSuper
  else if data = ab "true" then some .TokenTrue
  else if data = ab "var" then some .TokenVar
  else if data = ab "while" then some .TokenWhile
  else none

/-- String-body loop of Go `scanner.string`. -/
def stringLoop : Nat → Sc → Sc
  | 0, s => s
  | fuel + 1, s =>
    let (r, size) := s.currentRune
    if r = 34 ∨ s.isEOF then s
    else stringLoop fuel { s with current := s.current + size }

/-- The body of Go `scanner.nextToken` after the whitespace skip: set
`start`, classify the current rune, and scan one token. -/
def nextTokenCore (s1 : Sc) : Token × Sc :=
  let s := { s1 with start := s1.current }
  if s.isEOF then (s.makeToken .TokenEOF, s)
  else
    let (r, size) := s.currentRune
    let s := { s with current := s.current + size }
    if isDigitR r then
      let s' := numberLoop (s.source.length + 1) s
      (s'.makeToken .TokenNumber, s')
    else if isAlphaR r then
      let s' := identLoop (s.source.length + 1) s
      let token := s'.makeToken .TokenIdentifier
      match keywordType token.data with
      | some t => ({ token with typ := t }, s')
      | none => (token, s')
    else if r = 40 then (s.makeToken .TokenLeftParen, s)
    else if r = 41 then (s.makeToken .TokenRightParen, s)
    else if r = 123 then (s.makeToken .TokenLeftBrace, s)
    else if r = 125 then (s.makeToken .TokenRightBrace, s)
    else if r = 44 then (s.makeToken .TokenComma, s)
    else if r = 46 then (s.makeToken .TokenDot, s)
    else if r = 43 then (s.makeToken .TokenPlus, s)
    else if r = 45 then (s.makeToken .TokenMinus, s)
    else if r = 42 then (s.makeToken .TokenStar, s)
    else if r = 47 then (s.makeToken .TokenSlash, s)
    else if r = 61 then
      let (m, s') := s.matchRune 61
      if m then (s'.makeToken .TokenEqualEqual, s')
      else (s'.makeToken .TokenEqual, s')
    else if r = 33 then
      let (m, s') := s.matchRune 61
      if m then (s'.makeToken .TokenBangEqual, s')
      else (s'.makeToken .TokenBang, s')
    else if r = 60 then
      let (m, s') := s.matchRune 61
      if m then (s'.makeToken .TokenLessEqual, s')
      else (s'.makeToken .TokenLess, s')
    else if r = 62 then
      let (m, s') := s.matchRune 61
      if m then (s'.makeToken .TokenGreaterEqual, s')
      else (s'.makeToken .TokenGreater, s')
    else if r = 59 then (s.makeToken .TokenSemicolon, s)
    else if r = 34 then
      let s' := stringLoop (s.source.length + 1) s
      if s'.isEOF then (s'.makeToken .TokenError, s')
      else
        let (_, size2) := s'.currentRune
        let s'' := { s' with current := s'.current + size2 }
        (s''.makeToken .TokenString, s'')
    else (s.makeToken .TokenError, s)

/-- Go `scanner.nextToken`.  Returns the token together with the updated
scanner (Go mutates the receiver). -/
def Sc.nextToken (s0 : Sc) : Token × Sc :=
  nextTokenCore (skipWhitespace (s0.source.length + 1) s0)

/-- Go `newScanner`. -/
def newScanner (source : List Nat) : Sc :=
  { source := source, start := 0, current := 0, line := 0 }

/-! ## Bytecode chunk (src/unnamed/part_001) -/

inductive Op where
  | OpConstant
  | OpNil
  | OpFalse
  | OpTrue
  | OpNegate
  | OpNot
  | OpAdd
  | OpSubtract
  | OpMultiply
  | OpDivide
  | OpEqual
  | OpGreater
  | OpLess
  | OpReturn
  deriving DecidableEq, Repr

/-- The opcode byte of an `Op` (Go iota order). -/
def Op.toByte : Op → Nat
  | .OpConstant => 0
  | .OpNil => 1
  | .OpFalse => 2
  | .OpTrue => 3
  | .OpNegate => 4
  | .OpNot => 5
  | .OpAdd => 6
  | .OpSubtract => 7
  | .OpMultiply => 8
  | .OpDivide => 9
  | .OpEqual => 10
  | .OpGreater => 11
  | .OpLess => 12
  | .OpReturn => 13

structure Chunk where
  code : List Nat
  vals : List Value
  deriving DecidableEq, Repr

def Chunk.addByte (c : Chunk) (b : Nat) : Chunk :=
  { c with code := c.code ++ [b] }

def Chunk.addOp (c : Chunk) (op : Op) : Chunk :=
  c.addByte op.toByte

/-- Go `Chunk.addVal`: appends and returns the new value's index. -/
def Chunk.addVal (c : Chunk) (val : Value) : Chunk × Nat :=
  ({ c with vals := c.vals ++ [val] }, c.vals.length)

/-! ## Compiler (src/unnamed/part_000) -/

/-- Compile-time errors, one constructor per distinct error site of the
Go compiler (Go formats these as strings with `fmt.Errorf`). -/
inductive CompileErr where
  | tokenError (line : Nat) (data : List Nat)
  | expected (want got : TokenType)
  | unknownTokenType (t : TokenType)
  | syntaxError
  | unknownLiteral (t : TokenType)
  | numberFormat
  | tooManyConstants
  | unknownUnaryOp (t : TokenType)
  | unknownBinaryOp (t : TokenType)
  | nilInfixCall
  | outOfFuel
  deriving DecidableEq, Repr

/-- Tags naming the prefix handlers stored in the Go rule table. -/
inductive PrefixFn where
  | literalFn
  | numberFn
  | groupingFn
  | unaryFn
  deriving DecidableEq, Repr

/-- Tags naming the infix handlers stored in the Go rule table. -/
inductive InfixFn where
  | binaryFn
  deriving DecidableEq, Repr

structure ParseRule where
  pfx : Option PrefixFn
  ifx : Option InfixFn
  prec : Nat
  deriving DecidableEq, Repr

/-- Precedence levels (Go iota order): None=0, Assignment=1, Or=2,
And=3, Equality=4, Comparison=5, Term=6, Factor=7, Unary=8, Call=9,
Primary=10. -/
def precNone : Nat := 0
def precAssignment : Nat := 1
def precEquality : Nat := 4
def precComparison : Nat := 5
def precTerm : Nat := 6
def precFactor : Nat := 7
def precUnary : Nat := 8

/-- The rule table built by Go `newCompiler`; `none` models a map miss
(which Go turns into an "unknown token type" error). -/
def parseRules : TokenType → Option ParseRule
  | .TokenEOF => some ⟨none, none, precNone⟩
  | .TokenNil => some ⟨some .literalFn, none, precNone⟩
  | .TokenFalse => some ⟨some .literalFn, none, precNone⟩
  | .TokenTrue => some ⟨some .literalFn, none, precNone⟩
  | .TokenLeftParen => some ⟨some .groupingFn, none, precNone⟩
  | .TokenRightParen => some ⟨none, none, precNone⟩
  | .TokenPlus => some ⟨some .unaryFn, some .binaryFn, precTerm⟩
  | .TokenMinus => some ⟨some .unaryFn, some .binaryFn, precTerm⟩
  | .TokenStar => some ⟨some .unaryFn, some .binaryFn, precFactor⟩
  | .TokenSlash => some ⟨some .unaryFn, some .binaryFn, precFactor⟩
  | .TokenEqualEqual => some ⟨none, some .binaryFn, precEquality⟩
  | .TokenGreater => some ⟨none, some .binaryFn, precComparison⟩
  | .TokenLess => some ⟨none, some .binaryFn, precComparison⟩
  | .TokenBang => some ⟨some .unaryFn, none, precNone⟩
  | .TokenNumber => some ⟨some .numberFn, none, precNone⟩
  | _ => none

/-- Go `compiler.getParseRule`. -/
def getParseRule (typ : TokenType) : Except CompileErr ParseRule :=
  match parseRules typ with
  | some r => .ok r
  | none => .error (.unknownTokenType typ)

/-- Go `literalOps` table. -/
def literalOps (typ : TokenType) : Option Op :=
  match typ with
  | .TokenNil => some .OpNil
  | .TokenFalse => some .OpFalse
  | .TokenTrue => some .OpTrue
  | _ => none

/-- Go `unaryOps` table: only `-` and `!` have entries. -/
def unaryOps (typ : TokenType) : Option Op :=
  match typ with
  | .TokenMinus => some .OpNegate
  | .TokenBang => some .OpNot
  | _ => none

/-- Go `binaryOps` table. -/
def binaryOps (typ : TokenType) : Option Op :=
  match typ with
  | .TokenPlus => some .OpAdd
  | .TokenMinus => some .OpSubtract
  | .TokenStar => some .OpMultiply
  | .TokenSlash => some .OpDivide
  | .TokenEqualEqual => some .OpEqual
  | .TokenGreater => some .OpGreater
  | .TokenLess => some .OpLess
  | _ => none

def isDigitByte (b : Nat) : Bool := 48 ≤ b ∧ b ≤ 57

def digitsToNat (bs : List Nat) : Nat :=
  bs.foldl (fun acc b => acc * 10 + (b - 48)) 0

/-- Go `strconv.ParseFloat(text, 64)` restricted to plain decimal forms
`digits [ . digits ]` with at least one digit (the only texts the
compiler can receive are number-token spans; any other text — e.g. a
span containing non-ASCII digit bytes — makes ParseFloat fail, modelled
as `none`). -/
def parseFloatBytes (bs : List Nat) : Option Rat :=
  let ip := bs.takeWhile (fun b => b ≠ 46)
  let rest := bs.dropWhile (fun b => b ≠ 46)
  if ip.all isDigitByte then
    match rest with
    | [] => if ip.isEmpty then none else some (digitsToNat ip)
    | _ :: fp =>
      if fp.all isDigitByte ∧ ¬ (ip.isEmpty ∧ fp.isEmpty) then
        some ((digitsToNat ip : Rat) + (digitsToNat fp : Rat) / ((10 : Rat) ^ fp.length))
      else none
  else none

/-- The Go `compiler` struct minus the chunk (which is threaded
separately, as Go passes it to every handler). -/
structure CSt where
  scanner : Sc
  current : Token
  previous : Token
  deriving DecidableEq, Repr

/-- Go `compiler.advance`. -/
def CSt.advance (st : CSt) : CSt :=
  let (tok, sc) := st.scanner.nextToken
  { scanner := sc, previous := st.current, current := tok }

/-- Go `compiler.consume`. -/
def CSt.consume (st : CSt) (typ : TokenType) : Except CompileErr CSt :=
  if st.current.typ = typ then .ok st.advance
  else .error (.expected typ st.current.typ)

/-- Go `compiler.literal` handler body. -/
def literalH (st : CSt) (ch : Chunk) : Except CompileErr (CSt × Chunk) :=
  match literalOps st.previous.typ with
  | some op => .ok (st, ch.addOp op)
  | none => .error (.unknownLiteral st.previous.typ)

/-- Go `compiler.number` handler body: parse the span, append to the
pool, refuse index > 255, emit `Constant idx`. -/
def numberH (st : CSt) (ch : Chunk) : Except CompileErr (CSt × Chunk) :=
  match parseFloatBytes st.previous.data with
  | none => .error .numberFormat
  | some f =>
    let (ch, index) := ch.addVal (numberValue f)
    if index > 255 then .error .tooManyConstants
    else .ok (st, (ch.addOp .OpConstant).addByte index)

mutual

/-- Go `compiler.parse`: fueled mutual recursion; every call site
strictly decreases fuel (fuel exhaustion is a modelling artifact that
only produces the sentinel error `outOfFuel`). -/
def parseP : Nat → CSt → Chunk → Nat → Except CompileErr (CSt × Chunk)
  | 0, _, _, _ => .error .outOfFuel
  | fuel + 1, st, ch, prec =>
    let st := st.advance
    match getParseRule st.previous.typ with
    | .error e => .error e
    | .ok rule =>
      match rule.pfx with
      | none => .error .syntaxError
      | some p =>
        match runPrefix fuel p st ch with
        | .error e => .error e
        | .ok (st, ch) => infixLoop fuel st ch prec

/-- The infix loop inside Go `compiler.parse`. -/
def infixLoop : Nat → CSt → Chunk → Nat → Except CompileErr (CSt × Chunk)
  | 0, _, _, _ => .error .outOfFuel
  | fuel + 1, st, ch, prec =>
    match getParseRule st.current.typ with
    | .error e => .error e
    | .ok rule =>
      if prec > rule.prec then .ok (st, ch)
      else
        let st := st.advance
        match rule.ifx with
        | none => .error .nilInfixCall
        | some i =>
          match runInfix fuel i st ch with
          | .error e => .error e
          | .ok (st, ch) => infixLoop fuel st ch prec

/-- Dispatch on the prefix-handler tag; `grouping` and `unary` bodies
are inlined here (Go `compiler.grouping` / `compiler.unary`). -/
def runPrefix : Nat → PrefixFn → CSt → Chunk → Except CompileErr (CSt × Chunk)
  | _, .literalFn, st, ch => literalH st ch
  | _, .numberFn, st, ch => numberH st ch
  | fuel, .groupingFn, st, ch =>
    (match fuel with
     | 0 => .error .outOfFuel
     | fuel + 1 =>
       match parseP fuel st ch precAssignment with
       | .error e => .error e
       | .ok (st, ch) =>
         match st.consume .TokenRightParen with
         | .error e => .error e
         | .ok st => .ok (st, ch))
  | fuel, .unaryFn, st, ch =>
    (match fuel with
     | 0 => .error .outOfFuel
     | fuel + 1 =>
       let typ := st.previous.typ
       match parseP fuel st ch precUnary with
       | .error e => .error e
       | .ok (st, ch) =>
         match unaryOps typ with
         | some op => .ok (st, ch.addOp op)
         | none => .error (.unknownUnaryOp typ))

/-- Dispatch on the infix-handler tag; Go `compiler.binary` is inlined:
parse the right operand at (this operator's precedence + 1), then emit
its instruction. -/
def runInfix : Nat → InfixFn → CSt → Chunk → Except CompileErr (CSt × Chunk)
  | fuel, .binaryFn, st, ch =>
    (match fuel with
     | 0 => .error .outOfFuel
     | fuel + 1 =>
       let typ := st.previous.typ
       match getParseRule typ with
       | .error e => .error e
       | .ok rule =>
         match parseP fuel st ch (rule.prec + 1) with
         | .error e => .error e
         | .ok (st, ch) =>
           match binaryOps typ with
           | some op => .ok (st, ch.addOp op)
           | none => .error (.unknownBinaryOp typ))

end

/-- The top-level loop of Go `compiler.compile`: Error token → fail,
EOF → stop, otherwise parse one expression at Assignment precedence. -/
def compileLoop : Nat → CSt → Chunk → Except CompileErr (CSt × Chunk)
  | 0, _, _ => .error .outOfFuel
  | fuel + 1, st, ch =>
    if st.current.typ = .TokenError then
      .error (.tokenError st.current.line st.current.data)
    else if st.current.typ = .TokenEOF then .ok (st, ch)
    else
      match parseP fuel st ch precAssignment with
      | .error e => .error e
      | .ok (st, ch) => compileLoop fuel st ch

/-- The zero Go `Token{}` (field zero values). -/
def zeroToken : Token := ⟨.TokenError, 0, []⟩

/-- The compiler's initial state: fresh scanner, zero-valued tokens. -/
def initCSt (source : List Nat) : CSt :=
  { scanner := newScanner source, current := zeroToken,
    previous := zeroToken }

/-- Go `compiler.compile`: prime the lookahead, run the loop, then
append the final `Return` instruction. -/
def compile (fuel : Nat) (source : List Nat) : Except CompileErr Chunk :=
  let st := (initCSt source).advance
  match compileLoop fuel st ⟨[], []⟩ with
  | .error e => .error e
  | .ok (_, ch) => .ok (ch.addOp .OpReturn)

/-! ## Virtual machine (src/unnamed/part_001) -/

/-- Runtime outcomes of the VM loop.  `emptyPop` models the Go panic of
`Stack.pop` on an empty stack (index out of range); `truncated` the Go
panic of reading a missing `Constant` operand byte; `badIndex` the Go
panic of indexing the constant pool out of range. -/
inductive RunErr where
  | emptyPop
  | typeMismatch
  | assertPanic
  | unknownOp (b : Nat)
  | truncated
  | badIndex
  deriving DecidableEq, Repr

def verrToRunErr : VErr → RunErr
  | .mismatch => .typeMismatch
  | .assertFailed => .assertPanic

/-- One iteration of the VM dispatch switch (Go `vm.run`): decode the
opcode byte `b`, pop/push on the operand stack (top = list head; Go
pushes at the slice end; `binary` pops the right operand first, then the
left), and either halt with the final output/error or continue, telling
the loop how many operand bytes were consumed (`skip`). -/
structure NextSt where
  skip : Nat
  stack : List Value
  out : List Value

def runStep (vals : List Value) (b : Nat) (rest : List Nat)
    (stack out : List Value) : NextSt ⊕ (List Value × Option RunErr) :=
  if b = 0 then
    match rest with
    | [] => .inr (out, some .truncated)
    | idx :: _ =>
      match vals[idx]? with
      | none => .inr (out, some .badIndex)
      | some v => .inl ⟨1, v :: stack, out⟩
  else if b = 1 then .inl ⟨0, nilValue :: stack, out⟩
  else if b = 2 then .inl ⟨0, boolValue false :: stack, out⟩
  else if b = 3 then .inl ⟨0, boolValue true :: stack, out⟩
  else if b = 4 ∨ b = 5 then
    match stack with
    | [] => .inr (out, some .emptyPop)
    | v :: stack' =>
      match (if b = 4 then negateValue v else notValue v) with
      | .error e => .inr (out, some (verrToRunErr e))
      | .ok res => .inl ⟨0, res :: stack', out⟩
  else if 6 ≤ b ∧ b ≤ 12 then
    match stack with
    | [] => .inr (out, some .emptyPop)
    | bv :: stack1 =>
      match stack1 with
      | [] => .inr (out, some .emptyPop)
      | av :: stack' =>
        let f := if b = 6 then addValues
          else if b = 7 then subtractValues
          else if b = 8 then multiplyValues
          else if b = 9 then divideValues
          else if b = 10 then valuesEqual
          else if b = 11 then valueGreater
          else valueLess
        match f av bv with
        | .error e => .inr (out, some (verrToRunErr e))
        | .ok res => .inl ⟨0, res :: stack', out⟩
  else if b = 13 then
    match stack with
    | [] => .inr (out, some .emptyPop)
    | v :: stack' => .inl ⟨0, stack', out ++ [v]⟩
  else .inr (out, some (.unknownOp b))

/-- The VM loop (the `for ip` loop of Go `vm.run`): run `runStep` on
each instruction until the byte stream is exhausted or a step halts.
The fuel is a modelling artifact: each Go iteration consumes at least
one code byte, so `run` below passes `code.length`, which the loop can
never exhaust. -/
def runLoop (vals : List Value) :
    Nat → List Nat → List Value → List Value → List Value × Option RunErr
  | _, [], _, out => (out, none)
  | 0, _ :: _, _, out => (out, none)
  | fuel + 1, b :: rest, stack, out =>
    match runStep vals b rest stack out with
    | .inr r => r
    | .inl nx => runLoop vals fuel (rest.drop nx.skip) nx.stack nx.out

/-- Go `vm.run` on a chunk: fresh empty stack, empty output. -/
def run (ch : Chunk) : List Value × Option RunErr :=
  runLoop ch.vals ch.code.length ch.code [] []

/-- Go `interpret` (part_003): compile then run; a compile error is
reported without running. -/
def interpret (fuel : Nat) (source : List Nat) :
    Except CompileErr (List Value × Option RunErr) :=
  match compile fuel source with
  | .error e => .error e
  | .ok ch => .ok (run ch)

/-! ## Static stack-height / constant-index checker

`check n code h` walks the instruction stream exactly as `runLoop`
decodes it, tracking only the stack height: it returns the final height
when every instruction finds the operands it pops already pushed and
every `Constant` operand indexes below `n`, and `none` otherwise.  It is
the invariant the compiler is proved to establish and that `runLoop` is
proved to respect. -/

def check (n : Nat) : List Nat → Nat → Option Nat
  | [], h => some h
  | b :: rest, h =>
    if b = 0 then
      match rest with
      | [] => none
      | idx :: rest' => if idx < n then check n rest' (h + 1) else none
    else if b = 1 then check n rest (h + 1)
    else if b = 2 then check n rest (h + 1)
    else if b = 3 then check n rest (h + 1)
    else if b = 4 ∨ b = 5 then
      if 1 ≤ h then check n rest h else none
    else if 6 ≤ b ∧ b ≤ 12 then
      if 2 ≤ h then check n rest (h - 1) else none
    else if b = 13 then
      if 1 ≤ h then check n rest (h - 1) else none
    else none

/-- Operand-validity predicate of claim C4: decode the stream and
require every `Constant` instruction's operand byte to index a valid
slot of a pool of `n` constants. -/
def constOk : List Nat → Nat → Bool
  | [], _ => true
  | b :: rest, n =>
    if b = 0 then
      match rest with
      | [] => false
      | idx :: rest' => decide (idx < n) && constOk rest' n
    else constOk rest n

/-- A code segment that can be run from any height and leaves exactly
one extra value on the stack: what compiling one expression emits. -/
def GoodExpr (seg : List Nat) (n : Nat) : Prop :=
  ∀ h, check n seg h = some (h + 1)

/-- A code segment that needs one value already on the stack and leaves
the height unchanged: what an infix-handler run emits. -/
def GoodCont (seg : List Nat) (n : Nat) : Prop :=
  ∀ h, check n seg (h + 1) = some (h + 1)

theorem check_append (a : List Nat) {n h h' : Nat} (b : List Nat)
    (hchk : check n a h = some h') :
    check n (a ++ b) h = check n b h' := by
  match a with
  | [] =>
    rw [check.eq_def] at hchk
    simp only [] at hchk
    cases hchk
    simp
  | x :: rest =>
    rw [check.eq_def] at hchk
    rw [List.cons_append, check.eq_def]
    simp only [] at hchk ⊢
    split_ifs at hchk ⊢
    all_goals try exact check_append rest b hchk
    all_goals try exact absurd hchk (by simp)
    -- remaining: the Constant branch (x = 0)
    cases rest with
    | nil => exact absurd hchk (by simp)
    | cons idx rest' =>
      simp only [List.cons_append]
      simp only [] at hchk
      split_ifs at hchk ⊢ <;>
        first
        | exact check_append rest' b hchk
        | exact absurd hchk (by simp)
termination_by a.length

theorem check_mono (a : List Nat) {n m h h' : Nat} (hnm : n ≤ m)
    (hchk : check n a h = some h') : check m a h = some h' := by
  match a with
  | [] =>
    rw [check.eq_def] at hchk ⊢
    simpa using hchk
  | x :: rest =>
    rw [check.eq_def] at hchk
    rw [check.eq_def]
    simp only [] at hchk ⊢
    split_ifs at hchk ⊢
    all_goals try exact check_mono rest hnm hchk
    all_goals try exact absurd hchk (by simp)
    -- remaining: the Constant branch (x = 0)
    cases rest with
    | nil => exact absurd hchk (by simp)
    | cons idx rest' =>
      simp only [] at hchk ⊢
      split_ifs at hchk with hidx
      all_goals try exact absurd hchk (by simp)
      rw [if_pos (lt_of_lt_of_le hidx hnm)]
      exact check_mono rest' hnm hchk
termination_by a.length

theorem constOk_of_check (a : List Nat) {n h h' : Nat} (b : List Nat)
    (hchk : check n a h = some h') :
    constOk (a ++ b) n = constOk b n := by
  match a with
  | [] => simp
  | x :: rest =>
    rw [check.eq_def] at hchk
    rw [List.cons_append, constOk.eq_def]
    simp only [] at hchk ⊢
    split_ifs at hchk ⊢
    all_goals try exact constOk_of_check rest b hchk
    all_goals try exact absurd hchk (by simp)
    -- remaining: the Constant branch (x = 0)
    cases rest with
    | nil => exact absurd hchk (by simp)
    | cons idx rest' =>
      simp only [List.cons_append]
      simp only [] at hchk
      split_ifs at hchk with hidx
      all_goals try exact absurd hchk (by simp)
      have hd : decide (idx < n) = true := decide_eq_true hidx
      simp only [hd, Bool.true_and]
      exact constOk_of_check rest' b hchk
termination_by a.length

/-- A statically height-checked code stream never pops an empty stack at
run time: every pop `runLoop` performs finds the stack nonempty, whatever
values are actually on it and even if execution aborts early with a type
error. -/
theorem runLoop_no_emptyPop (vals : List Value) (fuel : Nat)
    (code : List Nat) (stack out : List Value) {h' : Nat}
    (hchk : check vals.length code stack.length = some h') :
    (runLoop vals fuel code stack out).2 ≠ some .emptyPop := by
  match fuel, code with
  | fuel, [] => cases fuel <;> simp [runLoop]
  | 0, b :: rest => simp [runLoop]
  | fuel + 1, b :: rest =>
    rw [check.eq_def] at hchk
    simp only [] at hchk
    rw [runLoop]
    by_cases h0 : b = 0
    · -- Constant
      subst h0
      norm_num at hchk
      cases rest with
      | nil => exact absurd hchk (by simp)
      | cons idx rest' =>
        simp only [] at hchk
        split_ifs at hchk with hidx
        all_goals try exact absurd hchk (by simp)
        simp [runStep, List.getElem?_eq_getElem hidx]
        exact runLoop_no_emptyPop vals fuel rest' (vals[idx] :: stack) out
          (by simpa using hchk)
    rw [if_neg h0] at hchk
    by_cases h1 : b = 1
    · subst h1
      norm_num at hchk
      simp [runStep]
      exact runLoop_no_emptyPop vals fuel rest (nilValue :: stack) out
        (by simpa using hchk)
    rw [if_neg h1] at hchk
    by_cases h2 : b = 2
    · subst h2
      norm_num at hchk
      simp [runStep]
      exact runLoop_no_emptyPop vals fuel rest (boolValue false :: stack) out
        (by simpa using hchk)
    rw [if_neg h2] at hchk
    by_cases h3 : b = 3
    · subst h3
      norm_num at hchk
      simp [runStep]
      exact runLoop_no_emptyPop vals fuel rest (boolValue true :: stack) out
        (by simpa using hchk)
    rw [if_neg h3] at hchk
    by_cases h45 : b = 4 ∨ b = 5
    · rw [if_pos h45] at hchk
      split_ifs at hchk with hh
      all_goals try exact absurd hchk (by simp)
      cases stack with
      | nil => simp at hh
      | cons v stack' =>
        cases h45 with
        | inl hb =>
          subst hb
          simp only [runStep]
          norm_num
          cases hop : negateValue v with
          | error e => simp only [hop]; cases e <;> simp [verrToRunErr]
          | ok res =>
            simp only [hop, List.drop_zero]
            exact runLoop_no_emptyPop vals fuel rest (res :: stack') out
              (by simpa using hchk)
        | inr hb =>
          subst hb
          simp only [runStep]
          norm_num
          cases hop : notValue v with
          | error e => simp only [hop]; cases e <;> simp [verrToRunErr]
          | ok res =>
            simp only [hop, List.drop_zero]
            exact runLoop_no_emptyPop vals fuel rest (res :: stack') out
              (by simpa using hchk)
    rw [if_neg h45] at hchk
    by_cases h612 : 6 ≤ b ∧ b ≤ 12
    · rw [if_pos h612] at hchk
      split_ifs at hchk with hh
      all_goals try exact absurd hchk (by simp)
      cases stack with
      | nil => simp at hh
      | cons bv stack1 =>
        cases stack1 with
        | nil => simp at hh
        | cons av stack' =>
          simp only [runStep]
          rw [if_neg h0, if_neg h1, if_neg h2, if_neg h3, if_neg h45,
            if_pos h612]
          cases hop : ((if b = 6 then addValues
              else if b = 7 then subtractValues
              else if b = 8 then multiplyValues
              else if b = 9 then divideValues
              else if b = 10 then valuesEqual
              else if b = 11 then valueGreater
              else valueLess) av bv) with
          | error e => simp only [hop]; cases e <;> simp [verrToRunErr]
          | ok res =>
            simp only [hop, List.drop_zero]
            exact runLoop_no_emptyPop vals fuel rest (res :: stack') out
              (by simpa using hchk)
    rw [if_neg h612] at hchk
    by_cases h13 : b = 13
    · subst h13
      norm_num at hchk
      obtain ⟨hh, hchk⟩ := hchk
      cases stack with
      | nil => simp at hh
      | cons v stack' =>
        simp [runStep]
        exact runLoop_no_emptyPop vals fuel rest stack' (out ++ [v])
          (by simpa using hchk)
    rw [if_neg h13] at hchk
    exact absurd hchk (by simp)
termination_by code.length

/-! ## Compiler emission invariant -/

theorem GoodCont_nil (n : Nat) : GoodCont [] n := by
  intro h; simp [check]

theorem GoodExpr_append_cont {s t : List Nat} {n : Nat}
    (hs : GoodExpr s n) (ht : GoodCont t n) : GoodExpr (s ++ t) n := by
  intro h
  rw [check_append s t (hs h)]
  exact ht h

theorem GoodCont_append {s t : List Nat} {n : Nat}
    (hs : GoodCont s n) (ht : GoodCont t n) : GoodCont (s ++ t) n := by
  intro h
  rw [check_append s t (hs h)]
  exact ht h

theorem GoodExpr_mono {s : List Nat} {n m : Nat} (hnm : n ≤ m)
    (hs : GoodExpr s n) : GoodExpr s m :=
  fun h => check_mono s hnm (hs h)

theorem GoodCont_mono {s : List Nat} {n m : Nat} (hnm : n ≤ m)
    (hs : GoodCont s n) : GoodCont s m :=
  fun h => check_mono s hnm (hs h)

theorem GoodExpr_lit {b n : Nat} (hb : b = 1 ∨ b = 2 ∨ b = 3) :
    GoodExpr [b] n := by
  intro h
  rcases hb with hb | hb | hb <;> subst hb <;> simp [check]

theorem GoodExpr_constant {idx n : Nat} (hidx : idx < n) :
    GoodExpr [0, idx] n := by
  intro h
  simp [check, hidx]

theorem GoodExpr_unary {s : List Nat} {b n : Nat} (hs : GoodExpr s n)
    (hb : b = 4 ∨ b = 5) : GoodExpr (s ++ [b]) n := by
  intro h
  rw [check_append s [b] (hs h)]
  rcases hb with hb | hb <;> subst hb <;> simp [check]

theorem GoodCont_binary {s : List Nat} {b n : Nat} (hs : GoodExpr s n)
    (hb : 6 ≤ b ∧ b ≤ 12) : GoodCont (s ++ [b]) n := by
  intro h
  rw [check_append s [b] (hs (h + 1))]
  rw [check.eq_def]
  simp only []
  rw [if_neg (by omega), if_neg (by omega), if_neg (by omega),
    if_neg (by omega), if_neg (by omega), if_pos hb, if_pos (by omega)]
  simp [check]

/-- `ch'` extends `ch` by appending a segment that is a complete
expression: net stack effect +1, never popping below the start height,
all constant operands valid for the final pool. -/
def EmitsExpr (ch ch' : Chunk) : Prop :=
  (∃ vs, ch'.vals = ch.vals ++ vs) ∧
  ∃ seg, ch'.code = ch.code ++ seg ∧ GoodExpr seg ch'.vals.length

/-- `ch'` extends `ch` by a segment that needs one value on the stack
and leaves the height unchanged (an infix-operator continuation). -/
def EmitsCont (ch ch' : Chunk) : Prop :=
  (∃ vs, ch'.vals = ch.vals ++ vs) ∧
  ∃ seg, ch'.code = ch.code ++ seg ∧ GoodCont seg ch'.vals.length

theorem EmitsCont_refl (ch : Chunk) : EmitsCont ch ch :=
  ⟨⟨[], by simp⟩, [], by simp, GoodCont_nil _⟩

theorem vals_len_mono {ch ch' : Chunk} (h : ∃ vs, ch'.vals = ch.vals ++ vs) :
    ch.vals.length ≤ ch'.vals.length := by
  obtain ⟨vs, hv⟩ := h
  simp [hv]

theorem EmitsExpr_trans_cont {ch ch1 ch2 : Chunk}
    (h1 : EmitsExpr ch ch1) (h2 : EmitsCont ch1 ch2) : EmitsExpr ch ch2 := by
  obtain ⟨⟨vs1, hv1⟩, s1, hc1, hg1⟩ := h1
  obtain ⟨⟨vs2, hv2⟩, s2, hc2, hg2⟩ := h2
  refine ⟨⟨vs1 ++ vs2, by simp [hv2, hv1]⟩, s1 ++ s2, by simp [hc2, hc1], ?_⟩
  exact GoodExpr_append_cont
    (GoodExpr_mono (vals_len_mono ⟨vs2, hv2⟩) hg1) hg2

theorem EmitsCont_trans {ch ch1 ch2 : Chunk}
    (h1 : EmitsCont ch ch1) (h2 : EmitsCont ch1 ch2) : EmitsCont ch ch2 := by
  obtain ⟨⟨vs1, hv1⟩, s1, hc1, hg1⟩ := h1
  obtain ⟨⟨vs2, hv2⟩, s2, hc2, hg2⟩ := h2
  refine ⟨⟨vs1 ++ vs2, by simp [hv2, hv1]⟩, s1 ++ s2, by simp [hc2, hc1], ?_⟩
  exact GoodCont_append
    (GoodCont_mono (vals_len_mono ⟨vs2, hv2⟩) hg1) hg2

theorem literalOps_byte {t : TokenType} {op : Op}
    (h : literalOps t = some op) :
    op.toByte = 1 ∨ op.toByte = 2 ∨ op.toByte = 3 := by
  cases t <;> simp [literalOps] at h <;> simp [h.symm, Op.toByte]

theorem unaryOps_byte {t : TokenType} {op : Op}
    (h : unaryOps t = some op) : op.toByte = 4 ∨ op.toByte = 5 := by
  cases t <;> simp [unaryOps] at h <;> simp [h.symm, Op.toByte]

theorem binaryOps_byte {t : TokenType} {op : Op}
    (h : binaryOps t = some op) : 6 ≤ op.toByte ∧ op.toByte ≤ 12 := by
  cases t <;> simp [binaryOps] at h <;> simp [h.symm, Op.toByte]

theorem addOp_code (ch : Chunk) (op : Op) :
    (ch.addOp op).code = ch.code ++ [op.toByte] := rfl

theorem addOp_vals (ch : Chunk) (op : Op) :
    (ch.addOp op).vals = ch.vals := rfl

theorem EmitsExpr_addOp_lit {ch : Chunk} {op : Op}
    (hb : op.toByte = 1 ∨ op.toByte = 2 ∨ op.toByte = 3) :
    EmitsExpr ch (ch.addOp op) :=
  ⟨⟨[], by simp [addOp_vals]⟩, [op.toByte], by simp [addOp_code],
    by rw [addOp_vals]; exact GoodExpr_lit hb⟩

theorem EmitsExpr_addOp_unary {ch ch1 : Chunk} {op : Op}
    (h : EmitsExpr ch ch1) (hb : op.toByte = 4 ∨ op.toByte = 5) :
    EmitsExpr ch (ch1.addOp op) := by
  obtain ⟨⟨vs, hv⟩, seg, hc, hg⟩ := h
  refine ⟨⟨vs, by simp [addOp_vals, hv]⟩, seg ++ [op.toByte],
    by simp [addOp_code, hc], ?_⟩
  rw [addOp_vals]
  exact GoodExpr_unary hg hb

theorem EmitsCont_addOp_binary {ch ch1 : Chunk} {op : Op}
    (h : EmitsExpr ch ch1) (hb : 6 ≤ op.toByte ∧ op.toByte ≤ 12) :
    EmitsCont ch (ch1.addOp op) := by
  obtain ⟨⟨vs, hv⟩, seg, hc, hg⟩ := h
  refine ⟨⟨vs, by simp [addOp_vals, hv]⟩, seg ++ [op.toByte],
    by simp [addOp_code, hc], ?_⟩
  rw [addOp_vals]
  exact GoodCont_binary hg hb

theorem numberH_emits {st : CSt} {ch : Chunk} {st' : CSt} {ch' : Chunk}
    (hok : numberH st ch = .ok (st', ch')) : EmitsExpr ch ch' := by
  unfold numberH at hok
  cases hf : parseFloatBytes st.previous.data with
  | none => rw [hf] at hok; exact absurd hok (by simp)
  | some f =>
    rw [hf] at hok
    simp only [Chunk.addVal] at hok
    by_cases hgt : ch.vals.length > 255
    · rw [if_pos hgt] at hok
      exact absurd hok (by simp)
    rw [if_neg hgt] at hok
    cases hok
    refine ⟨⟨[numberValue f], by simp [Chunk.addOp, Chunk.addByte]⟩,
      [(0 : Nat), ch.vals.length], by simp [Chunk.addOp, Chunk.addByte, Op.toByte], ?_⟩
    have hlen : ((({ ch with vals := ch.vals ++ [numberValue f] } : Chunk).addOp
        .OpConstant).addByte ch.vals.length).vals.length = ch.vals.length + 1 := by
      simp [Chunk.addOp, Chunk.addByte]
    rw [hlen]
    exact GoodExpr_constant (Nat.lt_succ_self _)

theorem literalH_emits {st : CSt} {ch : Chunk} {st' : CSt} {ch' : Chunk}
    (hok : literalH st ch = .ok (st', ch')) : EmitsExpr ch ch' := by
  unfold literalH at hok
  cases hlit : literalOps st.previous.typ with
  | none => rw [hlit] at hok; exact absurd hok (by simp)
  | some op =>
    rw [hlit] at hok
    cases hok
    exact EmitsExpr_addOp_lit (literalOps_byte hlit)

mutual

theorem parseP_emits (fuel : Nat) (st : CSt) (ch : Chunk) (prec : Nat)
    (st' : CSt) (ch' : Chunk)
    (hok : parseP fuel st ch prec = .ok (st', ch')) : EmitsExpr ch ch' := by
  match fuel with
  | 0 => exact absurd hok (by simp [parseP])
  | fuel + 1 =>
    rw [parseP] at hok
    try simp only [] at hok
    cases hrule : getParseRule (st.advance).previous.typ with
    | error e => rw [hrule] at hok; exact absurd hok (by simp)
    | ok rule =>
      rw [hrule] at hok
      try simp only [] at hok
      cases hpfx : rule.pfx with
      | none => rw [hpfx] at hok; exact absurd hok (by simp)
      | some p =>
        rw [hpfx] at hok
        try simp only [] at hok
        cases hpre : runPrefix fuel p st.advance ch with
        | error e => rw [hpre] at hok; exact absurd hok (by simp)
        | ok res =>
          rw [hpre] at hok
          try simp only [] at hok
          have h1 : EmitsExpr ch res.2 :=
            runPrefix_emits fuel p st.advance ch res.1 res.2
              (by rw [hpre])
          have h2 : EmitsCont res.2 ch' :=
            infixLoop_emits fuel res.1 res.2 prec st' ch' (by
              cases res
              exact hok)
          exact EmitsExpr_trans_cont h1 h2

theorem runPrefix_emits (fuel : Nat) (p : PrefixFn) (st : CSt) (ch : Chunk)
    (st' : CSt) (ch' : Chunk)
    (hok : runPrefix fuel p st ch = .ok (st', ch')) : EmitsExpr ch ch' := by
  rw [runPrefix.eq_def] at hok
  match p with
  | .literalFn => exact literalH_emits hok
  | .numberFn => exact numberH_emits hok
  | .groupingFn =>
    try simp only [] at hok
    match fuel with
    | 0 => exact absurd hok (by simp)
    | fuel + 1 =>
      try simp only [] at hok
      cases hp : parseP fuel st ch precAssignment with
      | error e => rw [hp] at hok; exact absurd hok (by simp)
      | ok res =>
        rw [hp] at hok
        try simp only [] at hok
        cases hc : res.1.consume .TokenRightParen with
        | error e =>
          rw [hc] at hok
          exact absurd hok (by simp)
        | ok st2 =>
          rw [hc] at hok
          cases hok
          exact parseP_emits fuel st ch precAssignment res.1 res.2 (by rw [hp])
  | .unaryFn =>
    try simp only [] at hok
    match fuel with
    | 0 => exact absurd hok (by simp)
    | fuel + 1 =>
      try simp only [] at hok
      cases hp : parseP fuel st ch precUnary with
      | error e => rw [hp] at hok; exact absurd hok (by simp)
      | ok res =>
        rw [hp] at hok
        try simp only [] at hok
        cases hu : unaryOps st.previous.typ with
        | none =>
          rw [hu] at hok
          exact absurd hok (by simp)
        | some op =>
          rw [hu] at hok
          cases hok
          exact EmitsExpr_addOp_unary
            (parseP_emits fuel st ch precUnary res.1 res.2 (by rw [hp]))
            (unaryOps_byte hu)

theorem runInfix_emits (fuel : Nat) (i : InfixFn) (st : CSt) (ch : Chunk)
    (st' : CSt) (ch' : Chunk)
    (hok : runInfix fuel i st ch = .ok (st', ch')) : EmitsCont ch ch' := by
  rw [runInfix.eq_def] at hok
  match i with
  | .binaryFn =>
    try simp only [] at hok
    match fuel with
    | 0 => exact absurd hok (by simp)
    | fuel + 1 =>
      try simp only [] at hok
      cases hrule : getParseRule st.previous.typ with
      | error e => rw [hrule] at hok; exact absurd hok (by simp)
      | ok rule =>
        rw [hrule] at hok
        try simp only [] at hok
        cases hp : parseP fuel st ch (rule.prec + 1) with
        | error e => rw [hp] at hok; exact absurd hok (by simp)
        | ok res =>
          rw [hp] at hok
          try simp only [] at hok
          cases hb : binaryOps st.previous.typ with
          | none =>
            rw [hb] at hok
            exact absurd hok (by simp)
          | some op =>
            rw [hb] at hok
            cases hok
            exact EmitsCont_addOp_binary
              (parseP_emits fuel st ch (rule.prec + 1) res.1 res.2 (by rw [hp]))
              (binaryOps_byte hb)

theorem infixLoop_emits (fuel : Nat) (st : CSt) (ch : Chunk) (prec : Nat)
    (st' : CSt) (ch' : Chunk)
    (hok : infixLoop fuel st ch prec = .ok (st', ch')) : EmitsCont ch ch' := by
  match fuel with
  | 0 => exact absurd hok (by simp [infixLoop])
  | fuel + 1 =>
    rw [infixLoop] at hok
    cases hrule : getParseRule st.current.typ with
    | error e => rw [hrule] at hok; exact absurd hok (by simp)
    | ok rule =>
      rw [hrule] at hok
      try simp only [] at hok
      split_ifs at hok with hprec
      · cases hok
        exact EmitsCont_refl ch
      · cases hifx : rule.ifx with
        | none => rw [hifx] at hok; exact absurd hok (by simp)
        | some i =>
          rw [hifx] at hok
          try simp only [] at hok
          cases hri : runInfix fuel i st.advance ch with
          | error e => rw [hri] at hok; exact absurd hok (by simp)
          | ok res =>
            rw [hri] at hok
            try simp only [] at hok
            have h1 : EmitsCont ch res.2 :=
              runInfix_emits fuel i st.advance ch res.1 res.2 (by rw [hri])
            have h2 : EmitsCont res.2 ch' :=
              infixLoop_emits fuel res.1 res.2 prec st' ch' (by
                cases res
                exact hok)
            exact EmitsCont_trans h1 h2

end

theorem compileLoop_emits (fuel : Nat) (st : CSt) (ch : Chunk)
    (st' : CSt) (ch' : Chunk)
    (hok : compileLoop fuel st ch = .ok (st', ch')) :
    (∃ vs, ch'.vals = ch.vals ++ vs) ∧
    ∃ seg m, ch'.code = ch.code ++ seg ∧
      (∀ h, check ch'.vals.length seg h = some (h + m)) ∧
      (st.current.typ ≠ .TokenEOF → 1 ≤ m) := by
  match fuel with
  | 0 => exact absurd hok (by simp [compileLoop])
  | fuel + 1 =>
    rw [compileLoop] at hok
    by_cases herr : st.current.typ = .TokenError
    · rw [if_pos herr] at hok
      exact absurd hok (by simp)
    rw [if_neg herr] at hok
    by_cases heof : st.current.typ = .TokenEOF
    · rw [if_pos heof] at hok
      cases hok
      exact ⟨⟨[], by simp⟩, [], 0, by simp, fun h => by simp [check],
        fun hne => absurd heof hne⟩
    rw [if_neg heof] at hok
    cases hp : parseP fuel st ch precAssignment with
    | error e => rw [hp] at hok; exact absurd hok (by simp)
    | ok res =>
      rw [hp] at hok
      try simp only [] at hok
      have h1 : EmitsExpr ch res.2 :=
        parseP_emits fuel st ch precAssignment res.1 res.2 (by rw [hp])
      have h2 := compileLoop_emits fuel res.1 res.2 st' ch' (by
        cases res
        exact hok)
      obtain ⟨⟨vs1, hv1⟩, s1, hc1, hg1⟩ := h1
      obtain ⟨⟨vs2, hv2⟩, s2, m2, hc2, hg2, _⟩ := h2
      refine ⟨⟨vs1 ++ vs2, by simp [hv2, hv1]⟩, s1 ++ s2, m2 + 1,
        by simp [hc2, hc1], ?_, fun _ => by omega⟩
      intro h
      have hg1' : GoodExpr s1 ch'.vals.length :=
        GoodExpr_mono (vals_len_mono ⟨vs2, hv2⟩) hg1
      rw [check_append s1 s2 (hg1' h), hg2 (h + 1)]
      congr 1
      omega
termination_by fuel

/-- The first token the scanner produces for a source (what primes the
compiler lookahead). -/
def firstToken (src : List Nat) : Token := ((newScanner src).nextToken).1

/-- Every successfully compiled chunk is a checked body followed by the
final `Return` byte; the body leaves `m` values on the stack, with
`m ≥ 1` whenever the first token of the source is not end-of-input. -/
theorem compile_shape {fuel : Nat} {src : List Nat} {ch : Chunk}
    (hok : compile fuel src = .ok ch) :
    ∃ seg m, ch.code = seg ++ [13] ∧
      (∀ h, check ch.vals.length seg h = some (h + m)) ∧
      ((firstToken src).typ ≠ .TokenEOF → 1 ≤ m) := by
  unfold compile at hok
  try simp only [] at hok
  cases hcl : compileLoop fuel (CSt.advance (initCSt src)) ⟨[], []⟩ with
  | error e => rw [hcl] at hok; exact absurd hok (by simp)
  | ok res =>
    rw [hcl] at hok
    try simp only [] at hok
    have hres : (res.2.addOp .OpReturn : Chunk) = ch := by
      cases res
      try simp only [] at hok
      cases hok
      rfl
    obtain ⟨⟨vs, hv⟩, seg, m, hcode, hchk, hne⟩ :=
      compileLoop_emits fuel _ _ res.1 res.2 (by
        cases res
        exact hcl)
    refine ⟨seg, m, ?_, ?_, ?_⟩
    · rw [← hres, addOp_code, hcode]
      simp [Op.toByte]
    · intro h
      rw [← hres, addOp_vals]
      exact hchk h
    · intro hfirst
      exact hne (by
        simpa [firstToken, CSt.advance, initCSt] using hfirst)

theorem check_return (n m : Nat) (hm : 1 ≤ m) :
    check n [13] m = some (m - 1) := by
  rw [check.eq_def]
  norm_num
  rw [check.eq_def]
  simp [hm]

/-- C4's invariant, universally: every Constant operand in any chunk a
successful compile returns indexes a valid slot of its constant pool. -/
theorem compile_constOk {fuel : Nat} {src : List Nat} {ch : Chunk}
    (hok : compile fuel src = .ok ch) :
    constOk ch.code ch.vals.length = true := by
  obtain ⟨seg, m, hcode, hchk, _⟩ := compile_shape hok
  rw [hcode, constOk_of_check seg [13] (hchk 0)]
  simp [constOk]

/-- C1's amended safety statement, universally: a chunk compiled from a
source whose first token is not EOF never pops an empty stack. -/
theorem compile_run_no_emptyPop {fuel : Nat} {src : List Nat} {ch : Chunk}
    (hok : compile fuel src = .ok ch)
    (hne : (firstToken src).typ ≠ .TokenEOF) :
    (run ch).2 ≠ some .emptyPop := by
  obtain ⟨seg, m, hcode, hchk, hm⟩ := compile_shape hok
  have hm1 : 1 ≤ m := hm hne
  have hfull : check ch.vals.length ch.code 0 = some (m - 1) := by
    rw [hcode, check_append seg [13] (hchk 0)]
    rw [Nat.zero_add]
    exact check_return _ m hm1
  unfold run
  exact runLoop_no_emptyPop ch.vals ch.code.length ch.code [] []
    (by simpa using hfull)

/-! ## ASCII scanner facts and the distinct-literal sources of C4 -/

def AllAscii (bs : List Nat) : Prop := ∀ b ∈ bs, b < 128

theorem runeCountAux_nil (fuel : Nat) : runeCountAux fuel [] = 0 := by
  cases fuel <;> rfl

theorem runeCountAux_ascii (fuel : Nat) (bs : List Nat)
    (h : AllAscii bs) (hfuel : bs.length ≤ fuel) :
    runeCountAux fuel bs = bs.length := by
  match fuel, bs with
  | fuel, [] => rw [runeCountAux_nil]; rfl
  | 0, b :: rest => simp at hfuel
  | fuel + 1, b :: rest =>
    have hb : b < 128 := h b (by simp)
    have hd : decodeRune (b :: rest) = ((b : Int), 1) := by
      rw [decodeRune.eq_def]
      simp only []
      rw [if_pos (by omega)]
    rw [runeCountAux]
    simp only [hd]
    norm_num
    rw [runeCountAux_ascii fuel rest (fun x hx => h x (by simp [hx]))
      (by simpa using hfuel)]
    simp

theorem utf8RuneCount_ascii {bs : List Nat} (h : AllAscii bs) :
    utf8RuneCount bs = bs.length :=
  runeCountAux_ascii bs.length bs h le_rfl

/-- For an all-ASCII source the byte/rune unit mismatch disappears and
`runeAt` is plain byte indexing. -/
theorem runeAt_ascii (s : Sc) (h : AllAscii s.source) (i : Nat) :
    s.runeAt i = match s.source.drop i with
      | [] => (-1, 0)
      | b :: _ => ((b : Int), 1) := by
  unfold Sc.runeAt
  rw [utf8RuneCount_ascii h]
  by_cases hi : i ≥ s.source.length
  · rw [if_pos hi]
    rw [List.drop_eq_nil_of_le hi]
  · rw [if_neg hi]
    cases hd : s.source.drop i with
    | nil =>
      exfalso
      have := List.drop_eq_nil_iff.mp hd
      omega
    | cons b tail =>
      have hb : b < 128 := h b (by
        have : b ∈ s.source.drop i := by simp [hd]
        exact List.mem_of_mem_drop this)
      rw [decodeRune.eq_def]
      simp only [hd]
      rw [if_pos (by omega)]

/-- Decimal digit bytes of `n`, most significant first (the byte text of
the numeric literals used in the too-many-constants sources). -/
def natDigs (n : Nat) : List Nat :=
  if n < 10 then [48 + n] else natDigs (n / 10) ++ [48 + n % 10]
decreasing_by exact Nat.div_lt_self (by omega) (by omega)

theorem natDigs_ne_nil (n : Nat) : natDigs n ≠ [] := by
  rw [natDigs]
  split_ifs <;> simp

theorem natDigs_digits (n : Nat) :
    ∀ d ∈ natDigs n, 48 ≤ d ∧ d ≤ 57 := by
  intro d hd
  rw [natDigs] at hd
  split_ifs at hd with h10
  · simp at hd
    omega
  · rw [List.mem_append] at hd
    cases hd with
    | inl hd => exact natDigs_digits (n / 10) d hd
    | inr hd =>
      simp at hd
      have := Nat.mod_lt n (show 0 < 10 by omega)
      omega
decreasing_by exact Nat.div_lt_self (by omega) (by omega)

theorem digitsToNat_append (xs : List Nat) (d : Nat) :
    digitsToNat (xs ++ [d]) = digitsToNat xs * 10 + (d - 48) := by
  unfold digitsToNat
  rw [List.foldl_append]
  simp

theorem digitsToNat_natDigs (n : Nat) : digitsToNat (natDigs n) = n := by
  rw [natDigs]
  split_ifs with h10
  · simp [digitsToNat]
  · rw [digitsToNat_append, digitsToNat_natDigs (n / 10)]
    omega
decreasing_by exact Nat.div_lt_self (by omega) (by omega)

theorem natDigs_injective : Function.Injective natDigs := by
  intro a b hab
  have := digitsToNat_natDigs a
  rw [hab, digitsToNat_natDigs] at this
  omega

theorem isDigitR_ofNat (b : Nat) :
    isDigitR ((b : Int)) = (decide (48 ≤ b) && decide (b ≤ 57)) := by
  unfold isDigitR
  by_cases h1 : 48 ≤ b <;> by_cases h2 : b ≤ 57 <;>
    simp [h1, h2] <;> omega

theorem currentRune_ascii (s : Sc) (ha : AllAscii s.source) :
    s.currentRune = match s.source.drop s.current with
      | [] => (-1, 0)
      | b :: _ => ((b : Int), 1) := by
  unfold Sc.currentRune
  exact runeAt_ascii s ha s.current

theorem drop_ne_nil_lt {src : List Nat} {c : Nat} {b : Nat} {tail : List Nat}
    (h : src.drop c = b :: tail) : c < src.length := by
  by_contra hc
  rw [List.drop_eq_nil_of_le (by omega)] at h
  cases h

theorem drop_succ_of_drop {src tail : List Nat} {b c : Nat}
    (h : src.drop c = b :: tail) : src.drop (c + 1) = tail := by
  have h2 := List.drop_drop 1 c src
  rw [h] at h2
  simpa [Nat.add_comm] using h2.symm

theorem skipWhitespace_at_digit (fuel : Nat) (hf : 1 ≤ fuel) (s : Sc)
    (ha : AllAscii s.source) (d : Nat) (tail : List Nat)
    (hdrop : s.source.drop s.current = d :: tail)
    (hd : 48 ≤ d ∧ d ≤ 57) :
    skipWhitespace fuel s = s := by
  match fuel with
  | fuel + 1 =>
    rw [skipWhitespace]
    rw [currentRune_ascii s ha]
    simp only [hdrop]
    have h1 : ¬(((d : Int)) = 32 ∨ ((d : Int)) = 13 ∨ ((d : Int)) = 9) := by
      omega
    have h2 : ¬(((d : Int)) = 10) := by omega
    have h3 : ¬(((d : Int)) = 47) := by omega
    rw [if_neg h1, if_neg h2, if_neg h3]

theorem skipWhitespace_at_end (fuel : Nat) (hf : 1 ≤ fuel) (s : Sc)
    (ha : AllAscii s.source)
    (hdrop : s.source.drop s.current = []) :
    skipWhitespace fuel s = s := by
  match fuel with
  | fuel + 1 =>
    rw [skipWhitespace]
    rw [currentRune_ascii s ha]
    simp only [hdrop]
    have h1 : ¬((-1 : Int) = 32 ∨ (-1 : Int) = 13 ∨ (-1 : Int) = 9) := by
      norm_num
    have h2 : ¬((-1 : Int) = 10) := by norm_num
    have h3 : ¬((-1 : Int) = 47) := by norm_num
    rw [if_neg h1, if_neg h2, if_neg h3]

theorem skipWhitespace_space (fuel : Nat) (hf : 2 ≤ fuel) (s : Sc)
    (ha : AllAscii s.source) (tail : List Nat)
    (hdrop : s.source.drop s.current = 32 :: tail)
    (htail : tail = [] ∨ ∃ d ds, tail = d :: ds ∧ 48 ≤ d ∧ d ≤ 57) :
    skipWhitespace fuel s = { s with current := s.current + 1 } := by
  match fuel with
  | fuel + 2 =>
    rw [skipWhitespace]
    rw [currentRune_ascii s ha]
    simp only [hdrop]
    have h32 : (((32 : Nat) : Int) = 32 ∨ ((32 : Nat) : Int) = 13 ∨
        ((32 : Nat) : Int) = 9) := by decide
    rw [if_pos h32]
    have hdrop' : s.source.drop (s.current + 1) = tail := drop_succ_of_drop hdrop
    cases htail with
    | inl he =>
      subst he
      exact skipWhitespace_at_end (fuel + 1) (by omega)
        { s with current := s.current + 1 } ha hdrop'
    | inr hd =>
      obtain ⟨d, ds, hds, hd48, hd57⟩ := hd
      exact skipWhitespace_at_digit (fuel + 1) (by omega)
        { s with current := s.current + 1 } ha d ds
        (by rw [show ({ s with current := s.current + 1 } : Sc).source = s.source from rfl,
              hdrop', hds]) ⟨hd48, hd57⟩

theorem numberLoop_digits (ds : List Nat) :
    ∀ (s : Sc) (fuel : Nat), AllAscii s.source →
    (∀ d ∈ ds, 48 ≤ d ∧ d ≤ 57) →
    ∀ rest : List Nat, s.source.drop s.current = ds ++ rest →
    (rest = [] ∨ ∃ r rs, rest = r :: rs ∧ (r < 48 ∨ 57 < r) ∧ r ≠ 46) →
    ds.length + 1 ≤ fuel →
    numberLoop fuel s = { s with current := s.current + ds.length } := by
  induction ds with
  | nil =>
    intro s fuel ha _ rest hdrop hstop hfuel
    match fuel with
    | fuel + 1 =>
      rw [numberLoop]
      rw [currentRune_ascii s ha]
      simp only [List.nil_append] at hdrop
      rw [hdrop]
      cases hstop with
      | inl he =>
        subst he
        simp only []
        have hd1 : isDigitR (-1) = false := by decide
        have hd2 : ¬((-1 : Int) = 46) := by norm_num
        rw [if_neg (by simp [hd1]), if_neg hd2]
        simp
      | inr hr =>
        obtain ⟨r, rs, hrs, hrange, hne46⟩ := hr
        subst hrs
        simp only []
        have hd1 : ¬(isDigitR ((r : Int)) = true) := by
          rw [isDigitR_ofNat]
          simp
          omega
        have hd2 : ¬(((r : Int)) = 46) := by omega
        rw [if_neg hd1, if_neg hd2]
        simp
  | cons d ds' ih =>
    intro s fuel ha hdig rest hdrop hstop hfuel
    match fuel with
    | fuel + 1 =>
      rw [numberLoop]
      rw [currentRune_ascii s ha]
      simp only [List.cons_append] at hdrop
      rw [hdrop]
      simp only []
      have hd : 48 ≤ d ∧ d ≤ 57 := hdig d (by simp)
      have hdt : isDigitR ((d : Int)) = true := by
        rw [isDigitR_ofNat]
        simp
        omega
      rw [if_pos hdt]
      have hdrop' : s.source.drop (s.current + 1) = ds' ++ rest :=
        drop_succ_of_drop hdrop
      rw [ih { s with current := s.current + 1 } fuel ha
        (fun x hx => hdig x (by simp [hx])) rest hdrop' hstop
        (by simp at hfuel ⊢; omega)]
      simp only []
      congr 1
      simp only [List.length_cons]
      omega

theorem nextTokenCore_number (s : Sc) (ha : AllAscii s.source) (n : Nat)
    (rest : List Nat)
    (hdrop : s.source.drop s.current = natDigs n ++ 32 :: rest) :
    nextTokenCore s =
      ({ typ := .TokenNumber, line := s.line + 1, data := natDigs n },
       { s with start := s.current, current := s.current + (natDigs n).length }) := by
  obtain ⟨d, ds', hds⟩ : ∃ d ds', natDigs n = d :: ds' := by
    cases hnd : natDigs n with
    | nil => exact absurd hnd (natDigs_ne_nil n)
    | cons d ds' => exact ⟨d, ds', rfl⟩
  have hdig := natDigs_digits n
  have hd : 48 ≤ d ∧ d ≤ 57 := hdig d (by rw [hds]; simp)
  have hdropd : s.source.drop s.current = d :: (ds' ++ 32 :: rest) := by
    rw [hdrop, hds]
    simp
  unfold nextTokenCore
  have hlt : s.current < s.source.length := drop_ne_nil_lt hdropd
  rw [if_neg (show ¬(({ s with start := s.current } : Sc).isEOF = true) by
    simp [Sc.isEOF]
    omega)]
  rw [currentRune_ascii { s with start := s.current } ha]
  simp only []
  rw [hdropd]
  simp only []
  have hdt : isDigitR ((d : Int)) = true := by
    rw [isDigitR_ofNat]
    simp
    omega
  rw [if_pos hdt]
  have hdrop1 : s.source.drop (s.current + 1) = ds' ++ 32 :: rest :=
    drop_succ_of_drop hdropd
  rw [numberLoop_digits ds'
    { s with start := s.current, current := s.current + 1 }
    (s.source.length + 1) ha
    (fun x hx => hdig x (by rw [hds]; simp [hx])) (32 :: rest) hdrop1
    (Or.inr ⟨32, rest, rfl, by omega, by omega⟩)
    (by
      have := congrArg List.length hdrop1
      simp at this
      omega)]
  unfold Sc.makeToken
  simp only []
  have hc : s.current + 1 + ds'.length - s.current = (natDigs n).length := by
    rw [hds]
    simp
    omega
  rw [hc]
  have hdata : (s.source.drop s.current).take (natDigs n).length = natDigs n := by
    rw [hdrop]
    exact List.take_left' rfl
  rw [hdata]
  have hcur : s.current + 1 + ds'.length = s.current + (natDigs n).length := by
    rw [hds]
    simp
    omega
  rw [hcur]

theorem nextTokenCore_eof (s : Sc) (hge : s.source.length ≤ s.current) :
    nextTokenCore s = ({ typ := .TokenEOF, line := s.line + 1, data := [] },
      { s with start := s.current }) := by
  unfold nextTokenCore
  rw [if_pos (show (({ s with start := s.current } : Sc).isEOF = true) by
    simp [Sc.isEOF]
    omega)]
  unfold Sc.makeToken
  simp only []
  congr 1
  simp

/-- One numeric literal followed by a space: the building block of the
too-many-constants sources. -/
def litBytes (n : Nat) : List Nat := natDigs n ++ [32]

/-- Space-separated distinct decimal literals. -/
def litsSource (ns : List Nat) : List Nat := (ns.map litBytes).flatten

theorem litsSource_ascii (ns : List Nat) : AllAscii (litsSource ns) := by
  intro b hb
  unfold litsSource at hb
  rw [List.mem_flatten] at hb
  obtain ⟨l, hl, hbl⟩ := hb
  rw [List.mem_map] at hl
  obtain ⟨n, _, hn⟩ := hl
  subst hn
  unfold litBytes at hbl
  rw [List.mem_append] at hbl
  cases hbl with
  | inl h => have := natDigs_digits n b h; omega
  | inr h => simp at h; omega

/-- The compiler lookahead protocol over a literal source: the current
token is the next literal (or EOF), and the scanner sits just past the
previous literal's digits, facing its separating space. -/
def TokStream (st : CSt) : List Nat → Prop
  | [] => st.current.typ = .TokenEOF
  | n :: ns' =>
      st.current.typ = .TokenNumber ∧ st.current.data = natDigs n ∧
      AllAscii st.scanner.source ∧
      st.scanner.source.drop st.scanner.current =
        32 :: (ns'.map litBytes).flatten

theorem advance_scanner (st : CSt) :
    st.advance =
      { scanner := (st.scanner.nextToken).2, previous := st.current,
        current := (st.scanner.nextToken).1 } := by
  unfold CSt.advance
  rfl

theorem TokStream_advance {st : CSt} {n : Nat} {ns : List Nat}
    (h : TokStream st (n :: ns)) : TokStream st.advance ns := by
  obtain ⟨htyp, hdata, ha, hdrop⟩ := h
  rw [advance_scanner]
  unfold Sc.nextToken
  cases ns with
  | nil =>
    simp only [List.map_nil, List.flatten_nil] at hdrop
    rw [skipWhitespace_space (st.scanner.source.length + 1)
      (by have := drop_ne_nil_lt hdrop; omega) st.scanner ha [] hdrop
      (Or.inl rfl)]
    have hend : st.scanner.source.length ≤ st.scanner.current + 1 := by
      have h2 : st.scanner.source.drop (st.scanner.current + 1) = [] :=
        drop_succ_of_drop hdrop
      have := List.drop_eq_nil_iff.mp h2
      omega
    rw [nextTokenCore_eof _ (by simpa using hend)]
    rfl
  | cons m ns'' =>
    have hdrop' : st.scanner.source.drop st.scanner.current =
        32 :: (natDigs m ++ 32 :: (ns''.map litBytes).flatten) := by
      rw [hdrop]
      simp [litBytes, litsSource]
    obtain ⟨d, ds', hds⟩ : ∃ d ds', natDigs m = d :: ds' := by
      cases hnd : natDigs m with
      | nil => exact absurd hnd (natDigs_ne_nil m)
      | cons d ds' => exact ⟨d, ds', rfl⟩
    have hd := natDigs_digits m d (by rw [hds]; simp)
    rw [skipWhitespace_space (st.scanner.source.length + 1)
      (by have := drop_ne_nil_lt hdrop'; omega) st.scanner ha _ hdrop'
      (Or.inr ⟨d, ds' ++ 32 :: (ns''.map litBytes).flatten,
        by rw [hds]; simp, hd.1, hd.2⟩)]
    have hdropm : st.scanner.source.drop (st.scanner.current + 1) =
        natDigs m ++ 32 :: (ns''.map litBytes).flatten :=
      drop_succ_of_drop hdrop'
    rw [nextTokenCore_number { st.scanner with current := st.scanner.current + 1 }
      ha m ((ns''.map litBytes).flatten) (by simpa using hdropm)]
    refine ⟨rfl, rfl, ha, ?_⟩
    show st.scanner.source.drop (st.scanner.current + 1 + (natDigs m).length) =
      32 :: (ns''.map litBytes).flatten
    have h2 := List.drop_drop (natDigs m).length (st.scanner.current + 1)
      st.scanner.source
    rw [hdropm, List.drop_left] at h2
    exact h2.symm

/-- Priming the lookahead on a fresh literal source lands in the token
protocol. -/
theorem TokStream_init (n : Nat) (ns : List Nat) :
    TokStream (initCSt (litsSource (n :: ns))).advance (n :: ns) := by
  have ha := litsSource_ascii (n :: ns)
  rw [advance_scanner]
  have hsrc : (initCSt (litsSource (n :: ns))).scanner.source =
      litsSource (n :: ns) := rfl
  have hcur : (initCSt (litsSource (n :: ns))).scanner.current = 0 := rfl
  have hdrop : (initCSt (litsSource (n :: ns))).scanner.source.drop
      (initCSt (litsSource (n :: ns))).scanner.current =
      natDigs n ++ 32 :: (ns.map litBytes).flatten := by
    rw [hsrc, hcur]
    simp [litsSource, litBytes]
  obtain ⟨d, ds', hds⟩ : ∃ d ds', natDigs n = d :: ds' := by
    cases hnd : natDigs n with
    | nil => exact absurd hnd (natDigs_ne_nil n)
    | cons d ds' => exact ⟨d, ds', rfl⟩
  have hd := natDigs_digits n d (by rw [hds]; simp)
  unfold Sc.nextToken
  rw [skipWhitespace_at_digit _ (by omega) _ (by rw [hsrc]; exact ha) d
    (ds' ++ 32 :: (ns.map litBytes).flatten)
    (by rw [hdrop, hds]; simp) hd]
  rw [nextTokenCore_number _ (by rw [hsrc]; exact ha) n
    ((ns.map litBytes).flatten) hdrop]
  refine ⟨rfl, rfl, by rw [hsrc]; exact ha, ?_⟩
  show (initCSt (litsSource (n :: ns))).scanner.source.drop
      ((initCSt (litsSource (n :: ns))).scanner.current + (natDigs n).length) =
    32 :: (ns.map litBytes).flatten
  rw [hsrc, hcur]
  have h2 := List.drop_drop (natDigs n).length 0 (litsSource (n :: ns))
  rw [List.drop_zero] at h2
  rw [show litsSource (n :: ns) =
    natDigs n ++ 32 :: (ns.map litBytes).flatten by simp [litsSource, litBytes]]
    at h2 ⊢
  rw [List.drop_left] at h2
  simpa using h2.symm

theorem parseFloatBytes_natDigs (n : Nat) :
    parseFloatBytes (natDigs n) = some ((n : Rat)) := by
  unfold parseFloatBytes
  have hd := natDigs_digits n
  have htw : (natDigs n).takeWhile (fun b => b ≠ 46) = natDigs n := by
    rw [List.takeWhile_eq_self_iff]
    intro b hb
    have := hd b hb
    simp
    omega
  have hdw : (natDigs n).dropWhile (fun b => b ≠ 46) = [] := by
    rw [List.dropWhile_eq_nil_iff]
    intro b hb
    have := hd b hb
    simp
    omega
  rw [htw, hdw]
  have hall : (natDigs n).all isDigitByte = true := by
    rw [List.all_eq_true]
    intro d hdm
    have := hd d hdm
    simp [isDigitByte]
    omega
  rw [if_pos hall]
  simp only []
  rw [if_neg (by simp [natDigs_ne_nil n])]
  rw [digitsToNat_natDigs]

/-- The chunk a single numeric-literal expression appends. -/
def litChunk (ch : Chunk) (n : Nat) : Chunk :=
  ⟨ch.code ++ [0, ch.vals.length], ch.vals ++ [numberValue ((n : Rat))]⟩

theorem numberH_lit {st : CSt} {ch : Chunk} {n : Nat}
    (hdata : st.previous.data = natDigs n) (hle : ch.vals.length ≤ 255) :
    numberH st ch = .ok (st, litChunk ch n) := by
  unfold numberH
  rw [hdata, parseFloatBytes_natDigs]
  simp only [Chunk.addVal]
  rw [if_neg (by omega)]
  unfold litChunk Chunk.addOp Chunk.addByte Op.toByte
  simp

theorem numberH_lit_fail {st : CSt} {ch : Chunk} {n : Nat}
    (hdata : st.previous.data = natDigs n) (hgt : 255 < ch.vals.length) :
    numberH st ch = .error .tooManyConstants := by
  unfold numberH
  rw [hdata, parseFloatBytes_natDigs]
  simp only [Chunk.addVal]
  rw [if_pos (by omega)]

theorem getParseRule_stream {st : CSt} {ns : List Nat}
    (hts : TokStream st ns) :
    getParseRule st.current.typ =
      .ok ⟨(match ns with | [] => none | _ :: _ => some .numberFn),
        none, precNone⟩ := by
  cases ns with
  | nil =>
    unfold TokStream at hts
    rw [hts]
    rfl
  | cons m ns' =>
    rw [hts.1]
    rfl

theorem parseP_lit_step {fuel : Nat} (hf : 2 ≤ fuel) {st : CSt} {ch : Chunk}
    {n : Nat} {ns' : List Nat} (hts : TokStream st (n :: ns'))
    (hle : ch.vals.length ≤ 255) :
    parseP fuel st ch precAssignment = .ok (st.advance, litChunk ch n) := by
  obtain ⟨g, rfl⟩ : ∃ g, fuel = g + 2 := ⟨fuel - 2, by omega⟩
  rw [parseP]
  have hprev : st.advance.previous = st.current := rfl
  have hrule : getParseRule st.advance.previous.typ =
      .ok ⟨some .numberFn, none, precNone⟩ := by
    rw [hprev, hts.1]
    rfl
  rw [hrule]
  simp only []
  have hrp : runPrefix (g + 1) .numberFn st.advance ch =
      numberH st.advance ch := rfl
  rw [hrp, numberH_lit (by rw [hprev]; exact hts.2.1) hle]
  simp only []
  rw [infixLoop]
  have hts' := TokStream_advance hts
  rw [getParseRule_stream hts']
  simp only []
  rw [if_pos (by cases ns' <;> simp [precAssignment, precNone])]

theorem parseP_lit_step_fail {fuel : Nat} (hf : 2 ≤ fuel) {st : CSt}
    {ch : Chunk} {n : Nat} {ns' : List Nat} (hts : TokStream st (n :: ns'))
    (hgt : 255 < ch.vals.length) :
    parseP fuel st ch precAssignment = .error .tooManyConstants := by
  obtain ⟨g, rfl⟩ : ∃ g, fuel = g + 2 := ⟨fuel - 2, by omega⟩
  rw [parseP]
  have hprev : st.advance.previous = st.current := rfl
  have hrule : getParseRule st.advance.previous.typ =
      .ok ⟨some .numberFn, none, precNone⟩ := by
    rw [hprev, hts.1]
    rfl
  rw [hrule]
  simp only []
  have hrp : runPrefix (g + 1) .numberFn st.advance ch =
      numberH st.advance ch := rfl
  rw [hrp, numberH_lit_fail (by rw [hprev]; exact hts.2.1) hgt]

theorem compileLoop_lits_ok (ns : List Nat) :
    ∀ (fuel : Nat) (st : CSt) (ch : Chunk),
    ns.length + 2 ≤ fuel → TokStream st ns →
    ch.vals.length + ns.length ≤ 256 →
    ∃ st' code', compileLoop fuel st ch =
      .ok (st', ⟨code', ch.vals ++ ns.map (fun k => numberValue ((k : Rat)))⟩) := by
  induction ns with
  | nil =>
    intro fuel st ch hfuel hts _
    obtain ⟨g, rfl⟩ : ∃ g, fuel = g + 1 := ⟨fuel - 1, by omega⟩
    rw [compileLoop]
    unfold TokStream at hts
    rw [if_neg (by rw [hts]; simp), if_pos (by rw [hts])]
    exact ⟨st, ch.code, by simp⟩
  | cons n ns' ih =>
    intro fuel st ch hfuel hts hle
    obtain ⟨g, rfl⟩ : ∃ g, fuel = g + 3 := ⟨fuel - 3, by simp at hfuel; omega⟩
    rw [compileLoop]
    rw [if_neg (by rw [hts.1]; simp), if_neg (by rw [hts.1]; simp)]
    rw [parseP_lit_step (by omega) hts (by simp at hle; omega)]
    simp only []
    obtain ⟨st', code', hrec⟩ := ih (g + 2) st.advance (litChunk ch n)
      (by simp at hfuel ⊢; omega) (TokStream_advance hts)
      (by simp [litChunk] at hle ⊢; omega)
    refine ⟨st', code', ?_⟩
    rw [hrec]
    simp [litChunk]

theorem compileLoop_lits_fail (ns : List Nat) :
    ∀ (fuel : Nat) (st : CSt) (ch : Chunk),
    ns.length + 2 ≤ fuel → TokStream st ns →
    ch.vals.length ≤ 256 → 256 < ch.vals.length + ns.length →
    compileLoop fuel st ch = .error .tooManyConstants := by
  induction ns with
  | nil =>
    intro fuel st ch hfuel hts hle hgt
    simp at hgt
    omega
  | cons n ns' ih =>
    intro fuel st ch hfuel hts hle hgt
    obtain ⟨g, rfl⟩ : ∃ g, fuel = g + 3 := ⟨fuel - 3, by simp at hfuel; omega⟩
    rw [compileLoop]
    rw [if_neg (by rw [hts.1]; simp), if_neg (by rw [hts.1]; simp)]
    by_cases hfull : 255 < ch.vals.length
    · rw [parseP_lit_step_fail (by omega) hts hfull]
    · rw [parseP_lit_step (by omega) hts (by omega)]
      simp only []
      exact ih (g + 2) st.advance (litChunk ch n)
        (by simp at hfuel ⊢; omega) (TokStream_advance hts)
        (by simp [litChunk]; omega) (by simp [litChunk] at hgt ⊢; omega)

/-- Compiling `k` space-separated distinct decimal literals with
`k ≤ 256` succeeds, and the constant pool is exactly those `k` numbers
in order. -/
theorem compile_lits_ok (ns : List Nat) (fuel : Nat)
    (hfuel : ns.length + 2 ≤ fuel) (hne : ns ≠ [])
    (hle : ns.length ≤ 256) :
    ∃ code', compile fuel (litsSource ns) =
      .ok (⟨code', ns.map (fun k => numberValue ((k : Rat)))⟩ : Chunk) := by
  match ns, hne with
  | n :: ns', _ =>
    unfold compile
    simp only []
    obtain ⟨st', code', hrec⟩ := compileLoop_lits_ok (n :: ns') fuel
      (initCSt (litsSource (n :: ns'))).advance ⟨[], []⟩ hfuel
      (TokStream_init n ns') (by simpa using hle)
    rw [hrec]
    exact ⟨code' ++ [13], by simp [Chunk.addOp, Chunk.addByte, Op.toByte]⟩

/-- Compiling more than 256 distinct decimal literals fails with the
too-many-constants error. -/
theorem compile_lits_fail (ns : List Nat) (fuel : Nat)
    (hfuel : ns.length + 2 ≤ fuel) (hne : ns ≠ [])
    (hgt : 256 < ns.length) :
    compile fuel (litsSource ns) = .error .tooManyConstants := by
  match ns, hne with
  | n :: ns', _ =>
    unfold compile
    simp only []
    rw [compileLoop_lits_fail (n :: ns') fuel
      (initCSt (litsSource (n :: ns'))).advance ⟨[], []⟩ hfuel
      (TokStream_init n ns') (by simp) (by simpa using hgt)]

/-! ## Claim-facing helper lemmas -/

theorem asNumber_ne_mismatch (v : Value) : v.asNumber ≠ .error .mismatch := by
  unfold Value.asNumber
  cases v.data <;> simp

/-- Common shape of the six guarded binary value operators: they return
the type-mismatch error exactly when the tag guard fails (a payload
panic, were one possible, is a different outcome). -/
theorem except_bind_ok {ε α β : Type} (a : α) (f : α → Except ε β) :
    (Except.ok a >>= f) = f a := rfl

theorem except_bind_error {ε α β : Type} (e : ε) (f : α → Except ε β) :
    ((Except.error e : Except ε α) >>= f) = Except.error e := rfl

theorem except_pure {ε α : Type} (a : α) :
    (pure a : Except ε α) = Except.ok a := rfl

theorem guard_mismatch_iff (k : Rat → Rat → Value)
    (f : Value → Value → Except VErr Value)
    (hf : ∀ a b, f a b =
      if a.typ = .ValueNumber ∧ b.typ = .ValueNumber then do
        let x ← a.asNumber
        let y ← b.asNumber
        pure (k x y)
      else .error .mismatch) (a b : Value) :
    f a b = .error .mismatch ↔
      ¬(a.typ = .ValueNumber ∧ b.typ = .ValueNumber) := by
  rw [hf]
  constructor
  · intro h hc
    rw [if_pos hc] at h
    cases hA : a.asNumber with
    | error e =>
      rw [hA, except_bind_error] at h
      cases h
      exact asNumber_ne_mismatch a hA
    | ok x =>
      rw [hA, except_bind_ok] at h
      cases hB : b.asNumber with
      | error e =>
        rw [hB, except_bind_error] at h
        cases h
        exact asNumber_ne_mismatch b hB
      | ok y =>
        rw [hB, except_bind_ok, except_pure] at h
        cases h
  · intro h
    rw [if_neg h]

/-- Well-formed runtime values: those the three Go constructors build
(tag and payload consistent). -/
def WFValue (v : Value) : Prop :=
  v = nilValue ∨ (∃ b, v = boolValue b) ∨ (∃ q, v = numberValue q)

/-! ## The claims -/

/-- C1, counterexample: the empty source compiles successfully (to the
bare `[Return]` chunk with an empty pool), and running that chunk pops
the empty operand stack — refuting the claim exactly at the empty string
it explicitly includes. -/
theorem C1_counterexample :
    compile 10 [] = .ok (⟨[13], []⟩ : Chunk) ∧
    (run (⟨[13], []⟩ : Chunk)).2 = some .emptyPop := by
  constructor <;> with_unfolding_all rfl

/-- C1, amended: for every chunk returned by a successful compile of a
source whose first token is not end-of-input (so at least one expression
is compiled), executing `run` never pops the operand stack while it is
empty — every pop, including the one of the final appended `Return`, is
preceded by a matching push. -/
theorem C1_no_empty_pop (fuel : Nat) (src : List Nat) (ch : Chunk)
    (hok : compile fuel src = .ok ch)
    (hne : (firstToken src).typ ≠ .TokenEOF) :
    (run ch).2 ≠ some .emptyPop :=
  compile_run_no_emptyPop hok hne

/-- C1, witness: the amended theorem applied to the concrete source
`1 + 2`. -/
theorem C1_no_empty_pop_witness :
    compile 100 (ab "1 + 2") =
      .ok (⟨[0, 0, 0, 1, 6, 13], [numberValue 1, numberValue 2]⟩ : Chunk) ∧
    (firstToken (ab "1 + 2")).typ ≠ .TokenEOF ∧
    (run (⟨[0, 0, 0, 1, 6, 13],
      [numberValue 1, numberValue 2]⟩ : Chunk)).2 ≠ some .emptyPop :=
  ⟨by with_unfolding_all rfl, by with_unfolding_all decide,
   C1_no_empty_pop 100 (ab "1 + 2") _ (by with_unfolding_all rfl)
     (by with_unfolding_all decide)⟩

/-- C2: the scanner does NOT skip a line comment together with the
following newline: for the source `// c\n1` the comment is consumed but
the `skipWhitespace` loop then breaks, so the newline itself is
classified by `nextToken` and comes back as an Error token (span `\n`),
and compilation fails at line 1 instead of producing the Number token
`1`.  This exhibits the code bug behind the claim. -/
theorem C2_comment_newline_bug :
    (Sc.nextToken (newScanner (ab "// c\n1"))).1 =
      (⟨.TokenError, 1, [10]⟩ : Token) ∧
    compile 100 (ab "// c\n1") = .error (.tokenError 1 [10]) := by
  constructor <;> with_unfolding_all rfl

/-- C3, counterexample: `negateValue` of a Bool value does not succeed —
the unchecked payload assertion `v.data.(float64)` panics (modelled as
the assertion-failure outcome), refuting "succeeds without error for
every tag". -/
theorem C3_counterexample :
    negateValue (boolValue true) = .error .assertFailed := by
  with_unfolding_all rfl

/-- C3, amended: `negateValue` performs no tag check and never returns
the type-mismatch error; on a Number it succeeds with the negated
number, and on Nil or Bool the unchecked payload assertion panics
(assertion failure), rather than coercing or returning an error value. -/
theorem C3_negate_unchecked :
    (∀ q : Rat, negateValue (numberValue q) = .ok (numberValue (-q))) ∧
    (∀ b : Bool, negateValue (boolValue b) = .error .assertFailed) ∧
    negateValue nilValue = .error .assertFailed ∧
    (∀ v : Value, negateValue v ≠ .error .mismatch) := by
  refine ⟨fun q => rfl, fun b => rfl, rfl, fun v => ?_⟩
  unfold negateValue Value.asNumber
  cases v.data <;> simp [Except.map]

/-- C4: compiling 256 space-separated distinct decimal literals succeeds
with the pool holding exactly those 256 numbers; 257 distinct literals
fail with the too-many-constants error (the literal texts are pairwise
distinct); and universally, every chunk a successful compile returns has
every `Constant` operand byte indexing a valid slot of its pool. -/
theorem C4_constant_bounds :
    (∃ code', compile 300 (litsSource (List.range 256)) =
      .ok (⟨code',
        (List.range 256).map (fun k => numberValue ((k : Rat)))⟩ : Chunk)) ∧
    compile 300 (litsSource (List.range 257)) = .error .tooManyConstants ∧
    ((List.range 257).map natDigs).Nodup ∧
    (∀ fuel src ch, compile fuel src = .ok ch →
      constOk ch.code ch.vals.length = true) := by
  refine ⟨?_, ?_, ?_, fun fuel src ch hok => compile_constOk hok⟩
  · exact compile_lits_ok (List.range 256) 300 (by simp) (by simp) (by simp)
  · exact compile_lits_fail (List.range 257) 300 (by simp) (by simp) (by simp)
  · exact List.Nodup.map natDigs_injective (List.nodup_range 257)

/-- C4, witness: the universal constant-validity component applied to
the chunk compiled from the concrete source `1`. -/
theorem C4_constant_bounds_witness :
    constOk (⟨[0, 0, 13], [numberValue 1]⟩ : Chunk).code
      (⟨[0, 0, 13], [numberValue 1]⟩ : Chunk).vals.length = true :=
  C4_constant_bounds.2.2.2 100 (ab "1") ⟨[0, 0, 13], [numberValue 1]⟩
    (by with_unfolding_all rfl)

/-- C5: `2 + 3 * 4` evaluates (prints) to `14.000000`, `(2 + 3) * 4` to
`20.000000`, and `8 - 3 - 2` to `3.000000`: multiplication binds tighter
than addition, parentheses override precedence, and equal-precedence
operators associate left (each infix handler parses its right operand at
its own precedence plus one). -/
theorem C5_precedence :
    interpret 100 (ab "2 + 3 * 4") = .ok ([numberValue 14], none) ∧
    formatValue (numberValue 14) = "14.000000" ∧
    interpret 100 (ab "(2 + 3) * 4") = .ok ([numberValue 20], none) ∧
    formatValue (numberValue 20) = "20.000000" ∧
    interpret 100 (ab "8 - 3 - 2") = .ok ([numberValue 3], none) ∧
    formatValue (numberValue 3) = "3.000000" := by
  refine ⟨?_, ?_, ?_, ?_, ?_, ?_⟩ <;> with_unfolding_all rfl

/-- C6: each of Add, Subtract, Multiply, Divide, Greater, Less returns
the type-mismatch runtime error exactly when at least one operand is not
a Number, and Divide of two Numbers never returns an error, even when
the divisor is zero (the payload model yields a value, never an error). -/
theorem C6_arith_type_errors :
    (∀ a b : Value, addValues a b = .error .mismatch ↔
      ¬(a.typ = .ValueNumber ∧ b.typ = .ValueNumber)) ∧
    (∀ a b : Value, subtractValues a b = .error .mismatch ↔
      ¬(a.typ = .ValueNumber ∧ b.typ = .ValueNumber)) ∧
    (∀ a b : Value, multiplyValues a b = .error .mismatch ↔
      ¬(a.typ = .ValueNumber ∧ b.typ = .ValueNumber)) ∧
    (∀ a b : Value, divideValues a b = .error .mismatch ↔
      ¬(a.typ = .ValueNumber ∧ b.typ = .ValueNumber)) ∧
    (∀ a b : Value, valueGreater a b = .error .mismatch ↔
      ¬(a.typ = .ValueNumber ∧ b.typ = .ValueNumber)) ∧
    (∀ a b : Value, valueLess a b = .error .mismatch ↔
      ¬(a.typ = .ValueNumber ∧ b.typ = .ValueNumber)) ∧
    (∀ p q : Rat,
      divideValues (numberValue p) (numberValue q) =
        .ok (numberValue (p / q))) :=
  ⟨guard_mismatch_iff (fun x y => numberValue (x + y)) addValues
      (fun _ _ => rfl),
   guard_mismatch_iff (fun x y => numberValue (x - y)) subtractValues
      (fun _ _ => rfl),
   guard_mismatch_iff (fun x y => numberValue (x * y)) multiplyValues
      (fun _ _ => rfl),
   guard_mismatch_iff (fun x y => numberValue (x / y)) divideValues
      (fun _ _ => rfl),
   guard_mismatch_iff (fun x y => boolValue (decide (x > y))) valueGreater
      (fun _ _ => rfl),
   guard_mismatch_iff (fun x y => boolValue (decide (x < y))) valueLess
      (fun _ _ => rfl),
   fun p q => by with_unfolding_all rfl⟩

/-- C7: the scanner bounds check mixes units — there is a scanner state
(source `é`, the two UTF-8 bytes C3 A9, byte cursor 1) whose cursor is
strictly inside the source bytes (`isEOF` is false) yet at or past the
source's rune count, so `runeAt` already returns the end-of-input
sentinel `(-1, 0)` there. -/
theorem C7_bounds_unit_mismatch :
    ∃ s : Sc, s.isEOF = false ∧ utf8RuneCount s.source ≤ s.current ∧
      s.runeAt s.current = (-1, 0) := by
  refine ⟨⟨[195, 169], 0, 1, 0⟩, by with_unfolding_all rfl,
    by with_unfolding_all decide, by with_unfolding_all rfl⟩

/-- C8: `+5` (and `*5`, `/5`) fails with the post-parse "unknown unary
operator" error — the prefix handler ran and parsed the operand first —
whereas a token with no prefix rule at all (here `==`) fails immediately
with the no-prefix-rule syntax error. -/
theorem C8_unary_quirk :
    compile 100 (ab "+5") = .error (.unknownUnaryOp .TokenPlus) ∧
    compile 100 (ab "*5") = .error (.unknownUnaryOp .TokenStar) ∧
    compile 100 (ab "/5") = .error (.unknownUnaryOp .TokenSlash) ∧
    compile 100 (ab "==5") = .error .syntaxError := by
  refine ⟨?_, ?_, ?_, ?_⟩ <;> with_unfolding_all rfl

/-- C9: `valuesEqual` never returns an error on well-formed values,
returns false whenever the tags differ, and compares payloads on equal
tags (Nil always equal, Bools by boolean equality, Numbers by numeric
equality); hence `nil == false` evaluates to false and `true == true`
to true. -/
theorem C9_equality :
    (∀ a b : Value, WFValue a → WFValue b →
      ∃ r : Bool, valuesEqual a b = .ok (boolValue r)) ∧
    (∀ a b : Value, WFValue a → WFValue b → a.typ ≠ b.typ →
      valuesEqual a b = .ok (boolValue false)) ∧
    valuesEqual nilValue nilValue = .ok (boolValue true) ∧
    (∀ b1 b2 : Bool, valuesEqual (boolValue b1) (boolValue b2) =
      .ok (boolValue (b1 == b2))) ∧
    (∀ q1 q2 : Rat, valuesEqual (numberValue q1) (numberValue q2) =
      .ok (boolValue (q1 == q2))) ∧
    interpret 100 (ab "nil == false") = .ok ([boolValue false], none) ∧
    interpret 100 (ab "true == true") = .ok ([boolValue true], none) := by
  refine ⟨?_, ?_, rfl, fun b1 b2 => rfl, fun q1 q2 => rfl,
    by with_unfolding_all rfl, by with_unfolding_all rfl⟩
  · intro a b ha hb
    rcases ha with rfl | ⟨b1, rfl⟩ | ⟨q1, rfl⟩ <;>
      rcases hb with rfl | ⟨b2, rfl⟩ | ⟨q2, rfl⟩ <;> exact ⟨_, rfl⟩
  · intro a b ha hb hne
    rcases ha with rfl | ⟨b1, rfl⟩ | ⟨q1, rfl⟩ <;>
      rcases hb with rfl | ⟨b2, rfl⟩ | ⟨q2, rfl⟩ <;>
      first
      | exact absurd rfl hne
      | rfl

/-- C9, witness: the universal components applied to concrete values
(`true` vs the number 1, and `nil` vs `false`). -/
theorem C9_equality_witness :
    (∃ r : Bool, valuesEqual (boolValue true) (numberValue 1) =
      .ok (boolValue r)) ∧
    valuesEqual nilValue (boolValue false) = .ok (boolValue false) :=
  ⟨C9_equality.1 (boolValue true) (numberValue 1)
      (Or.inr (Or.inl ⟨true, rfl⟩)) (Or.inr (Or.inr ⟨1, rfl⟩)),
   C9_equality.2.1 nilValue (boolValue false) (Or.inl rfl)
      (Or.inr (Or.inl ⟨false, rfl⟩)) (by simp [nilValue, boolValue])⟩

/-- C10: for the source `1.` the scanner consumes the trailing dot into
a single Number token with text `1.` (the next token is end-of-input),
the compiler's float parsing accepts that text as 1, and the program
compiles and prints `1.000000`. -/
theorem C10_trailing_dot :
    (Sc.nextToken (newScanner (ab "1."))).1 =
      (⟨.TokenNumber, 1, ab "1."⟩ : Token) ∧
    (Sc.nextToken ((Sc.nextToken (newScanner (ab "1."))).2)).1.typ =
      .TokenEOF ∧
    parseFloatBytes (ab "1.") = some 1 ∧
    interpret 100 (ab "1.") = .ok ([numberValue 1], none) ∧
    formatValue (numberValue 1) = "1.000000" := by
  refine ⟨?_, ?_, ?_, ?_, ?_⟩ <;> with_unfolding_all rfl

end Glox
